import Mathlib

/-!
Verification of the SugaR experience store (`src/experience.cpp`).

This file gives a shallow embedding of the experience-store core:
the on-disk record codec, the collision-chained in-memory index and its
`link_entry` merge/insert algorithm, the `_load` parser, the buffered
`_save` writer with its backup/restore wrapper `save`, the staging slice
of the compact-PGN ingestion pipeline (`convert_compact_pgn`), and the
diagnostic estimator (`show_exp`).

The repository header `experience.h` (which defines `ExpEntry`,
`ExpEntry::compare`, `ExpEntry::merge` and `MIN_EXP_DEPTH`) is not part
of the available sources; the definitions taken from it are modelled
from the specification and are marked `Modelled from the spec:` in their
doc comments.  Everything else is translated from `experience.cpp`.
-/

namespace Experience

/-- One experience record, the unit of on-disk storage.
Fields follow the spec data model: a 64-bit position fingerprint (`key`),
an opaque encoded move token (`move`), a signed evaluation (`value`) and
a search depth (`depth`).  Machine-width constraints are tracked by
`EntryWF` rather than by the types. -/
structure ExpEntry where
  key : Nat
  move : Nat
  value : Int
  depth : Int
deriving DecidableEq

/-- Field ranges of a record as stored on disk: 64-bit key, 32-bit move
token, 32-bit signed value and depth. -/
def EntryWF (e : ExpEntry) : Prop :=
  e.key < 2 ^ 64 ∧ e.move < 2 ^ 32 ∧
  -(2 ^ 31) ≤ e.value ∧ e.value < 2 ^ 31 ∧
  -(2 ^ 31) ≤ e.depth ∧ e.depth < 2 ^ 31

instance (e : ExpEntry) : Decidable (EntryWF e) :=
  inferInstanceAs (Decidable (e.key < 2 ^ 64 ∧ e.move < 2 ^ 32 ∧
    -(2 ^ 31) ≤ e.value ∧ e.value < 2 ^ 31 ∧
    -(2 ^ 31) ≤ e.depth ∧ e.depth < 2 ^ 31))

/-- Modelled from the spec: `MIN_EXP_DEPTH`, the minimum qualifying depth
(defined in the missing header `experience.h`); the spec calls it the
"minimum-depth filter" / "minimum-qualifying-depth". -/
def MIN_EXP_DEPTH : Int := 4

/-- Modelled from the spec: `ExpEntry::compare` from the missing header
`experience.h`.  Comparison/tie-break rule of spec 4.1: primary key is
depth (deeper search wins); secondary key is value (higher evaluation
wins).  The result is the sign-carrying difference used by
`link_entry`. -/
def ExpEntry.compare (a b : ExpEntry) : Int :=
  if a.depth ≠ b.depth then a.depth - b.depth else a.value - b.value

/-- Modelled from the spec: `ExpEntry::merge` from the missing header
`experience.h`.  Spec 4.1: the new data overwrites the existing node,
merge policy "prefer higher depth", idempotent; equal-depth duplicates
are keep-first (spec 9, documented assumption). -/
def ExpEntry.merge (old e : ExpEntry) : ExpEntry :=
  if old.depth < e.depth then { old with value := e.value, depth := e.depth } else old

/-! ## Association lists

`unordered_map<Key, ExpEntryEx*>` and the modelled file system both use
first-match association lists. -/

/-- First-match lookup in an association list. -/
def alookup {κ ν : Type} [DecidableEq κ] : List (κ × ν) → κ → Option ν
  | [], _ => none
  | p :: rest, k => if p.1 = k then some p.2 else alookup rest k

/-- Replace the value of the first pair with the given key; append the
pair when the key is absent. -/
def aupdate {κ ν : Type} [DecidableEq κ] : List (κ × ν) → κ → ν → List (κ × ν)
  | [], k, v => [(k, v)]
  | p :: rest, k, v => if p.1 = k then (k, v) :: rest else p :: aupdate rest k v

/-- Remove the first pair with the given key. -/
def aremove {κ ν : Type} [DecidableEq κ] : List (κ × ν) → κ → List (κ × ν)
  | [], _ => []
  | p :: rest, k => if p.1 = k then rest else p :: aremove rest k

@[simp] theorem alookup_nil {κ ν : Type} [DecidableEq κ] (k : κ) :
    alookup ([] : List (κ × ν)) k = none := rfl

@[simp] theorem alookup_cons {κ ν : Type} [DecidableEq κ] (p : κ × ν) (rest : List (κ × ν)) (k : κ) :
    alookup (p :: rest) k = if p.1 = k then some p.2 else alookup rest k := rfl

theorem alookup_aupdate_self {κ ν : Type} [DecidableEq κ] (l : List (κ × ν)) (k : κ) (v : ν) :
    alookup (aupdate l k v) k = some v := by
  induction l with
  | nil => simp [aupdate]
  | cons p rest ih =>
    by_cases h : p.1 = k
    · simp [aupdate, h]
    · simp [aupdate, h, ih]

theorem alookup_aupdate_other {κ ν : Type} [DecidableEq κ] {l : List (κ × ν)} {k k2 : κ} {v : ν}
    (h : k2 ≠ k) : alookup (aupdate l k v) k2 = alookup l k2 := by
  have h2 : ¬ k = k2 := fun he => h he.symm
  induction l with
  | nil => simp [aupdate, h2]
  | cons p rest ih =>
    by_cases hp : p.1 = k
    · simp [aupdate, hp, h2]
    · simp [aupdate, hp, ih]

/-! ## The chain index

`ExperienceData::_mainExp` maps a fingerprint to the head of a sorted
singly-linked chain of records; chains are embedded as lists. -/

/-- The in-memory index: fingerprint to chain of records. -/
abbrev Index := List (Nat × List ExpEntry)

/-- The chain stored for a fingerprint (empty when the key is absent). -/
def chainAt (idx : Index) (k : Nat) : List ExpEntry :=
  (alookup idx k).getD []

/-- `ExpEntryEx::find`: first node of a chain carrying the given move
(scan of the chain as described in spec 4.1). -/
def chainFind (m : Nat) : List ExpEntry → Option ExpEntry
  | [] => none
  | x :: rest => if x.move = m then some x else chainFind m rest

/-- Merge a duplicate record into the first chain node with the same move
(`expEx2->merge(expEx)` in `link_entry`). -/
def chainMergeFirst (e : ExpEntry) : List ExpEntry → List ExpEntry
  | [] => []
  | x :: rest => if x.move = e.move then x.merge e :: rest else x :: chainMergeFirst e rest

/-- The non-head part of the insertion walk of `link_entry`
(experience.cpp:140-156): at each node, if the new record beats it
(`expEx->compare(expEx2) > 0`), the new record is spliced in right
AFTER that node (`expEx->next = expEx2->next; expEx2->next = expEx`);
if the node is the last one, the new record is appended after it. -/
def chainInsertAfter (e : ExpEntry) : List ExpEntry → List ExpEntry
  | [] => [e]
  | x :: rest => if 0 < e.compare x then x :: e :: rest else x :: chainInsertAfter e rest

/-- The insertion walk of `link_entry` (experience.cpp:129-156): a new
record that beats the chain head becomes the new head
(experience.cpp:135-139); otherwise the walk continues with the
after-node splice of `chainInsertAfter`.  (The `[]` case is unreachable
from `link_entry`, which only walks chains of an existing map entry.) -/
def chainInsert (e : ExpEntry) : List ExpEntry → List ExpEntry
  | [] => [e]
  | x :: rest => if 0 < e.compare x then e :: x :: rest else x :: chainInsertAfter e rest

/-- `ExperienceData::link_entry` (experience.cpp:110-161).  Returns the
updated index and `true` for "inserted", `false` for "merged"
(a duplicate move). -/
def link_entry (e : ExpEntry) (idx : Index) : Index × Bool :=
  match alookup idx e.key with
  | none => ((e.key, [e]) :: idx, true)
  | some chain =>
    match chainFind e.move chain with
    | some _ => (aupdate idx e.key (chainMergeFirst e chain), false)
    | none => (aupdate idx e.key (chainInsert e chain), true)

/-- Linking a list of records in order (the `_load` record loop). -/
def linkList (rs : List ExpEntry) (idx : Index) : Index :=
  rs.foldl (fun i e => (link_entry e i).1) idx

/-! ## Record codec

Modelled from the spec (on-disk format of spec 6): each record is a
fixed-width little-endian tuple
`(fingerprint : 8 bytes, move : 4, value : 4, depth : 4, padding : 4)`,
24 bytes in total, preceded in the file by the ASCII signature tag
"SugaR".  The exact layout lives in the missing header `experience.h`;
only the fixed width and the field list matter for the claims. -/

/-- Little-endian decoding of a byte list. -/
def fromLE : List Nat → Nat
  | [] => 0
  | b :: rest => b + 256 * fromLE rest

/-- Little-endian encoding of `n` into `len` bytes (value taken modulo
`2 ^ (8 * len)`). -/
def toLE : Nat → Nat → List Nat
  | 0, _ => []
  | len + 1, n => n % 256 :: toLE len (n / 256)

/-- Interpret a 32-bit unsigned integer as two's-complement signed. -/
def toSigned32 (n : Nat) : Int :=
  if n < 2 ^ 31 then (n : Int) else (n : Int) - 2 ^ 32

/-- Two's-complement 32-bit image of a signed integer. -/
def ofSigned32 (v : Int) : Nat :=
  (v % 2 ^ 32).toNat

/-- Byte width of one on-disk record (`sizeof(ExpEntry)`). -/
def entrySize : Nat := 24

/-- The file signature `"SugaR"` as bytes (experience.cpp:49). -/
def signatureBytes : List Nat := [83, 117, 103, 97, 82]

/-- `strlen(ExperienceSignature)` (experience.cpp:50). -/
def signatureLength : Nat := 5

/-- Serialize one record to its 24 on-disk bytes. -/
def encodeEntry (e : ExpEntry) : List Nat :=
  toLE 8 e.key ++ toLE 4 e.move ++ toLE 4 (ofSigned32 e.value) ++
    toLE 4 (ofSigned32 e.depth) ++ [0, 0, 0, 0]

/-- Parse one record from (the first 24 of) a byte list. -/
def decodeEntry (bs : List Nat) : ExpEntry :=
  { key := fromLE (bs.take 8)
    move := fromLE ((bs.drop 8).take 4)
    value := toSigned32 (fromLE ((bs.drop 12).take 4))
    depth := toSigned32 (fromLE ((bs.drop 16).take 4)) }

@[simp] theorem toLE_length (len n : Nat) : (toLE len n).length = len := by
  induction len generalizing n with
  | zero => rfl
  | succ l ih => simp [toLE, ih]

theorem fromLE_toLE (len n : Nat) : fromLE (toLE len n) = n % 2 ^ (8 * len) := by
  induction len generalizing n with
  | zero => simp [toLE, fromLE, Nat.mod_one]
  | succ l ih =>
    have hsplit : (2:Nat) ^ (8 * (l + 1)) = 256 * 2 ^ (8 * l) := by
      rw [show 8 * (l + 1) = 8 + 8 * l by ring, Nat.pow_add]
    calc fromLE (toLE (l + 1) n)
        = n % 256 + 256 * (n / 256 % 2 ^ (8 * l)) := by simp [toLE, fromLE, ih]
      _ = n % 2 ^ (8 * (l + 1)) := by rw [hsplit, Nat.mod_mul]

theorem encodeEntry_length (e : ExpEntry) : (encodeEntry e).length = 24 := by
  simp [encodeEntry]

theorem toSigned32_ofSigned32 (v : Int) (h1 : -(2 ^ 31) ≤ v) (h2 : v < 2 ^ 31) :
    toSigned32 (ofSigned32 v) = v := by
  unfold toSigned32 ofSigned32
  rcases le_or_lt 0 v with hv | hv
  · have hmod : v % 2 ^ 32 = v := Int.emod_eq_of_lt hv (by omega)
    rw [hmod]
    have : (0:Int) ≤ v := hv
    split
    · omega
    · omega
  · have hmod : v % 2 ^ 32 = v + 2 ^ 32 := by omega
    rw [hmod]
    split
    · omega
    · omega

theorem decode_encode (e : ExpEntry) (h : EntryWF e) : decodeEntry (encodeEntry e) = e := by
  obtain ⟨hk, hm, hv1, hv2, hd1, hd2⟩ := h
  have hofv : ofSigned32 e.value < 2 ^ 32 := by unfold ofSigned32; omega
  have hofd : ofSigned32 e.depth < 2 ^ 32 := by unfold ofSigned32; omega
  have henc : encodeEntry e = toLE 8 e.key ++ (toLE 4 e.move ++ (toLE 4 (ofSigned32 e.value) ++
      (toLE 4 (ofSigned32 e.depth) ++ [0, 0, 0, 0]))) := by
    simp [encodeEntry, List.append_assoc]
  have h1 : (encodeEntry e).take 8 = toLE 8 e.key := by
    rw [henc, List.take_left' (toLE_length 8 e.key)]
  have hd8 : (encodeEntry e).drop 8 = toLE 4 e.move ++ (toLE 4 (ofSigned32 e.value) ++
      (toLE 4 (ofSigned32 e.depth) ++ [0, 0, 0, 0])) := by
    rw [henc, List.drop_left' (toLE_length 8 e.key)]
  have h2 : ((encodeEntry e).drop 8).take 4 = toLE 4 e.move := by
    rw [hd8, List.take_left' (toLE_length 4 e.move)]
  have henc2 : encodeEntry e = (toLE 8 e.key ++ toLE 4 e.move) ++ (toLE 4 (ofSigned32 e.value) ++
      (toLE 4 (ofSigned32 e.depth) ++ [0, 0, 0, 0])) := by
    simp [encodeEntry, List.append_assoc]
  have hlen12 : (toLE 8 e.key ++ toLE 4 e.move).length = 12 := by simp
  have h3 : ((encodeEntry e).drop 12).take 4 = toLE 4 (ofSigned32 e.value) := by
    rw [henc2, List.drop_left' hlen12, List.take_left' (toLE_length 4 _)]
  have henc3 : encodeEntry e = ((toLE 8 e.key ++ toLE 4 e.move) ++ toLE 4 (ofSigned32 e.value)) ++
      (toLE 4 (ofSigned32 e.depth) ++ [0, 0, 0, 0]) := by
    simp [encodeEntry, List.append_assoc]
  have hlen16 : ((toLE 8 e.key ++ toLE 4 e.move) ++ toLE 4 (ofSigned32 e.value)).length = 16 := by
    simp
  have h4 : ((encodeEntry e).drop 16).take 4 = toLE 4 (ofSigned32 e.depth) := by
    rw [henc3, List.drop_left' hlen16, List.take_left' (toLE_length 4 _)]
  have p64 : (2:Nat) ^ (8 * 8) = 2 ^ 64 := by norm_num
  have p32 : (2:Nat) ^ (8 * 4) = 2 ^ 32 := by norm_num
  unfold decodeEntry
  rw [h1, h2, h3, h4, fromLE_toLE, fromLE_toLE, fromLE_toLE, fromLE_toLE, p64, p32]
  rw [Nat.mod_eq_of_lt hk, Nat.mod_eq_of_lt hm, Nat.mod_eq_of_lt hofv, Nat.mod_eq_of_lt hofd]
  rw [toSigned32_ofSigned32 e.value hv1 hv2, toSigned32_ofSigned32 e.depth hd1 hd2]

/-! ## Loading (`ExperienceData::_load`, experience.cpp:163-278)

A file is `Option (List Nat)`: `none` when it cannot be opened, otherwise
its byte content.  Concurrency (the `_abortLoading` flag checked at each
record boundary) is outside this sequential embedding.  Allocation
failures (`malloc` returning null) are not modelled; those branches
return failure before touching the index, exactly like the modelled
pre-loop failures. -/

/-- The record-reading loop of `_load` (experience.cpp:228-249): read
`expCount` records of `entrySize` bytes, linking each into the index.
A short read mid-stream hands back the failure with whatever has been
linked so far (the C++ keeps `_mainExp` and only frees the raw block). -/
def loadEntries : List Nat → Nat → Index → Index × Bool
  | _, 0, idx => (idx, true)
  | bytes, n + 1, idx =>
    if bytes.length < entrySize then (idx, false)
    else loadEntries (bytes.drop entrySize) n (link_entry (decodeEntry (bytes.take entrySize)) idx).1

/-- `ExperienceData::_load`.  Size bookkeeping uses `size_t` arithmetic
(wrap-around modulo `2 ^ 64`), faithfully to
`size_t expDataSize = inSize - ExperienceSignatureLength`. -/
def loadFile (file : Option (List Nat)) (idx : Index) : Index × Bool :=
  match file with
  | none => (idx, false)
  | some bytes =>
    let inSize := bytes.length % 2 ^ 64
    if inSize = 0 then (idx, false)
    else
      let expDataSize := (inSize + (2 ^ 64 - signatureLength)) % 2 ^ 64
      let expCount := expDataSize / entrySize
      if expCount * entrySize ≠ expDataSize then (idx, false)
      else if bytes.length < signatureLength then (idx, false)
      else if bytes.take signatureLength ≠ signatureBytes then (idx, false)
      else loadEntries (bytes.drop signatureLength) expCount idx

theorem loadEntries_success (n : Nat) :
    ∀ (bytes : List Nat) (idx : Index), entrySize * n ≤ bytes.length →
      (loadEntries bytes n idx).2 = true := by
  induction n with
  | zero => intro bytes idx _; rfl
  | succ m ih =>
    intro bytes idx h
    have hlen : ¬ bytes.length < entrySize := by
      simp only [entrySize] at *; omega
    simp only [loadEntries, hlen, if_false]
    apply ih
    simp only [List.length_drop, entrySize] at *
    omega

/-! ## Saving

The modelled file system: named files with byte contents, plus
failure-injection sets for the four primitive operations the save path
uses (`fstream` open, `fstream` write, `remove`, `rename`).  File names
are byte strings (`Utility::map_path` is the identity here). -/

/-- File names (paths) as byte strings. -/
abbrev FName := List Nat

/-- The modelled file system. -/
structure FS where
  files : List (FName × List Nat)
  openFails : List FName
  writeFails : List FName
  removeFails : List FName
  renameFails : List FName
deriving DecidableEq

/-- Content of a file, when it exists. -/
def FS.lookupFile (fs : FS) (n : FName) : Option (List Nat) :=
  alookup fs.files n

/-- `Utility::file_exists`. -/
def FS.fileExists (fs : FS) (n : FName) : Bool :=
  (fs.lookupFile n).isSome

/-- Content of a file, defaulting to empty. -/
def FS.content (fs : FS) (n : FName) : List Nat :=
  (fs.lookupFile n).getD []

/-- Create or truncate-and-replace a file with the given content. -/
def FS.setFile (fs : FS) (n : FName) (c : List Nat) : FS :=
  { fs with files := aupdate fs.files n c }

/-- `remove()`: fails (non-zero) when the file is missing or the name is
in the failure-injection set. -/
def fsRemove (fs : FS) (n : FName) : FS × Bool :=
  if n ∈ fs.removeFails ∨ fs.fileExists n = false then (fs, false)
  else ({ fs with files := aremove fs.files n }, true)

/-- `rename()` with POSIX overwrite semantics: fails when the source is
missing or in the failure-injection set; otherwise the source is moved
over the destination. -/
def fsRename (fs : FS) (src dst : FName) : FS × Bool :=
  if src ∈ fs.renameFails ∨ fs.fileExists src = false then (fs, false)
  else (({ fs with files := aremove fs.files src } : FS).setFile dst (fs.content src), true)

/-- A stream write in append mode: fails for names in the
failure-injection set (modelling a failed `fstream` state), otherwise
appends the bytes to the file. -/
def outWrite (fs : FS) (n : FName) (bytes : List Nat) : FS × Bool :=
  if n ∈ fs.writeFails then (fs, false)
  else (fs.setFile n (fs.content n ++ bytes), true)

/-- The mutable state of one `ExperienceData` store that the save path
reads: the index and the two pending buffers (`_newPvExp`,
`_newMultiPvExp`). -/
structure Store where
  index : Index
  pendingPV : List ExpEntry
  pendingMPV : List ExpEntry
deriving DecidableEq

/-- `ExperienceData::has_new_exp`. -/
def hasNewExp (s : Store) : Bool :=
  !s.pendingPV.isEmpty || !s.pendingMPV.isEmpty

/-- All records of the index in iteration order (the chains of
`_mainExp` flattened). -/
def idxEntries (idx : Index) : List ExpEntry :=
  (idx.map Prod.snd).flatten

/-- Every record a store holds: index content followed by the two
pending buffers, in the order a full save writes them. -/
def storeRecords (s : Store) : List ExpEntry :=
  idxEntries s.index ++ s.pendingPV ++ s.pendingMPV

/-- `WriteBufferSize` (experience.cpp:55, the release value). -/
def WriteBufferSize : Nat := 1024 * 1024 * 16

/-- The `write_entry` lambda of `_save` (experience.cpp:312-331): append
the record bytes to the write buffer; flush the buffer to the stream
when forced or when it reached `WriteBufferSize`; report the stream
state.  The buffer is cleared by a flush whether or not the write
succeeded. -/
def write_entry (fn : FName) (fs : FS) (buf : List Nat) (e : Option ExpEntry) (force : Bool) :
    (FS × List Nat) × Bool :=
  let buf2 := match e with
    | some x => buf ++ encodeEntry x
    | none => buf
  if force ∨ WriteBufferSize ≤ buf2.length then
    let r := outWrite fs fn buf2
    ((r.1, []), r.2)
  else ((fs, buf2), true)

/-- One record-writing loop of `_save` (experience.cpp:335-396): each
record meeting the minimum-depth filter goes through `write_entry`; a
failed flush aborts the loop with failure. -/
def saveEntries (fn : FName) : List ExpEntry → FS → List Nat → (FS × List Nat) × Bool
  | [], fs, buf => ((fs, buf), true)
  | e :: rest, fs, buf =>
    if MIN_EXP_DEPTH ≤ e.depth then
      let r := write_entry fn fs buf (some e) false
      if r.2 then saveEntries fn rest r.1.1 r.1.2 else (r.1, false)
    else saveEntries fn rest fs buf

/-- Opening the target with `ios::out | ios::binary | ios::app`
(experience.cpp:283): an existing file is kept, a missing one is
created empty. -/
def openStage (fs : FS) (fn : FName) : FS :=
  if fs.fileExists fn then fs else fs.setFile fn []

/-- The signature step of `_save` (experience.cpp:291-304): if the file
is empty, write the signature directly to the stream. -/
def sigStage (fs : FS) (fn : FName) : FS × Bool :=
  if (fs.content fn).length = 0 then outWrite fs fn signatureBytes else (fs, true)

/-- `ExperienceData::_save` (experience.cpp:280-414).  Opens the target
in append mode (creating it when missing), writes the signature first if
the file is empty, then streams the index content (in full mode), the
pending PV buffer and the pending MultiPV buffer through the shared
write buffer, with a final forced flush whose result is ignored; on
success both pending buffers are cleared.  Returns
(file system, store, success). -/
def save_impl (store : Store) (fn : FName) (saveAll : Bool) (fs : FS) : FS × Store × Bool :=
  if fn ∈ fs.openFails then (fs, store, false)
  else
    let s := sigStage (openStage fs fn) fn
    if s.2 = false then (s.1, store, false)
    else
      let r1 := saveEntries fn (if saveAll then idxEntries store.index else []) s.1 []
      if r1.2 = false then (r1.1.1, store, false)
      else
        let r2 := saveEntries fn store.pendingPV r1.1.1 r1.1.2
        if r2.2 = false then (r2.1.1, store, false)
        else
          let r3 := saveEntries fn store.pendingMPV r2.1.1 r2.1.2
          if r3.2 = false then (r3.1.1, store, false)
          else
            let rF := write_entry fn r3.1.1 r3.1.2 none true
            (rF.1.1, { store with pendingPV := [], pendingMPV := [] }, true)

/-- The suffix appended to the target name to form the backup sibling
(the string ".bak" as bytes). -/
def bakSuffix : List Nat := [46, 98, 97, 107]

/-- The early-return guard of `ExperienceData::save`
(experience.cpp:493): nothing to do when there is no new experience and
(this is not a full save, or the index is empty). -/
def saveGuard (store : Store) (saveAll : Bool) : Bool :=
  !hasNewExp store && (!saveAll || store.index.isEmpty)

/-- The delete-previous-backup part of step 1 of `ExperienceData::save`
(experience.cpp:503-513): if a `.bak` sibling already exists, `remove`
it; a failed `remove` clears the backup name. -/
def backupRemoveStep (fs : FS) (b : FName) : FS × FName :=
  if fs.fileExists b then
    if (fsRemove fs b).2 then ((fsRemove fs b).1, b) else ((fsRemove fs b).1, [])
  else (fs, b)

/-- The rename part of step 1 of `ExperienceData::save`
(experience.cpp:515-525): with a backup name still set, `rename` the
target onto it; a failed `rename` clears the backup name. -/
def backupRenameStep (fs : FS) (fn bname : FName) : FS × FName :=
  if bname ≠ [] then
    if (fsRename fs fn bname).2 then ((fsRename fs fn bname).1, bname)
    else ((fsRename fs fn bname).1, [])
  else (fs, [])

/-- Step 1 of `ExperienceData::save` (experience.cpp:496-526): in full
mode, when the target exists, delete any previous `.bak` sibling and
rename the target to it.  Either primitive failing clears the backup
name (no restore will be attempted).  Returns the file system and the
backup name (`[]` meaning none). -/
def backupStep (fs : FS) (fn : FName) (saveAll : Bool) : FS × FName :=
  if saveAll ∧ fs.fileExists fn then
    backupRenameStep (backupRemoveStep fs (fn ++ bakSuffix)).1 fn
      (backupRemoveStep fs (fn ++ bakSuffix)).2
  else (fs, [])

/-- `ExperienceData::save` (experience.cpp:488-540): early-return guard,
backup creation, `_save`, and backup restoration when `_save` fails. -/
def save (store : Store) (fn : FName) (saveAll : Bool) (fs : FS) : FS × Store :=
  if saveGuard store saveAll then (fs, store)
  else
    let bk := backupStep fs fn saveAll
    let r := save_impl store fn saveAll bk.1
    if r.2.2 then (r.1, r.2.1)
    else if bk.2 ≠ [] then ((fsRename r.1 bk.2 fn).1, r.2.1)
    else (r.1, r.2.1)

/-! ## Ingestion staging (`convert_compact_pgn`, experience.cpp:733-1166)

Only the staging slice is embedded: which move tokens of a game become
records in `tempBuffer` and under which key (experience.cpp:979-1001 and
1059-1061).  The position replay itself is an external collaborator
(spec 1); it enters as an abstract fingerprint sequence `keyAt`, where
`keyAt i` is the fingerprint of the position after `i` moves have been
applied (so `keyAt i` is the position *before* move `i` is played). -/

/-- A parsed `move[:score:depth]` token: the move with the optional
score and depth fields (`VALUE_NONE`/`DEPTH_NONE` sentinels become
`none`). -/
structure MoveTok where
  move : Nat
  score : Option Int
  depth : Option Int
deriving DecidableEq

/-- The token loop of `convert_compact_pgn_to_exp` restricted to
staging, with `i` the number of moves already applied.  A record is
staged for a token carrying both score and depth whenever
`depth >= minDepth && depth <= maxDepth && abs(score) <= maxValue`
(experience.cpp:984), keyed by `gameData.pos.key()` before `do_move`. -/
def stagedGo (minDepth maxDepth maxValue : Int) (keyAt : Nat → Nat) :
    Nat → List MoveTok → List ExpEntry
  | _, [] => []
  | i, t :: rest =>
    match t.depth, t.score with
    | some d, some s =>
      if minDepth ≤ d ∧ d ≤ maxDepth ∧ |s| ≤ maxValue then
        ⟨keyAt i, t.move, s, d⟩ :: stagedGo minDepth maxDepth maxValue keyAt (i + 1) rest
      else stagedGo minDepth maxDepth maxValue keyAt (i + 1) rest
    | _, _ => stagedGo minDepth maxDepth maxValue keyAt (i + 1) rest

/-- The records one game's token list stages into `tempBuffer`. -/
def stagedRecords (minDepth maxDepth maxValue : Int) (keyAt : Nat → Nat)
    (toks : List MoveTok) : List ExpEntry :=
  stagedGo minDepth maxDepth maxValue keyAt 0 toks

/-- Modelled from the spec: the staging filter as the claim states it,
with the additional ply-count condition "game ply count does not exceed
the max-ply limit" (the ply count of the token at index `i` is `i + 1`,
matching `++gamePly` before each token).  Used only to compare the
claimed behaviour with `stagedRecords`. -/
def stagedGoClaim (maxPly minDepth maxDepth maxValue : Int) (keyAt : Nat → Nat) :
    Nat → List MoveTok → List ExpEntry
  | _, [] => []
  | i, t :: rest =>
    match t.depth, t.score with
    | some d, some s =>
      if ((i : Int) + 1 ≤ maxPly) ∧ minDepth ≤ d ∧ d ≤ maxDepth ∧ |s| ≤ maxValue then
        ⟨keyAt i, t.move, s, d⟩ :: stagedGoClaim maxPly minDepth maxDepth maxValue keyAt (i + 1) rest
      else stagedGoClaim maxPly minDepth maxDepth maxValue keyAt (i + 1) rest
    | _, _ => stagedGoClaim maxPly minDepth maxDepth maxValue keyAt (i + 1) rest

/-- Modelled from the spec: the staged records as the claim describes
them (all three filters, including the max-ply limit). -/
def stagedRecordsClaim (maxPly minDepth maxDepth maxValue : Int) (keyAt : Nat → Nat)
    (toks : List MoveTok) : List ExpEntry :=
  stagedGoClaim maxPly minDepth maxDepth maxValue keyAt 0 toks

/-! ## Diagnostic estimator (`show_exp`, experience.cpp:1168-1283)

The position is again abstract: `step key move` is the fingerprint after
playing `move` in the position with fingerprint `key`. -/

/-- `experienceBookMovesAhead` (experience.cpp:1183). -/
def experienceBookMovesAhead : Nat := 8

/-- The "find best next experience move" scan (experience.cpp:1216-1223)
applied to a probed chain: start from the head and replace the current
candidate by any later node whose `compare` against it is non-zero (the
`int` result is used as a boolean there). -/
def bestNext : List ExpEntry → Option ExpEntry
  | [] => none
  | h :: t => some (t.foldl (fun cur x => if x.compare cur ≠ 0 then x else cur) h)

/-- The inner walk of `show_exp` (experience.cpp:1196-1224): up to
`experienceBookMovesAhead` plies, while the current node qualifies by
depth, accumulate the depth- and multiplier-weighted side-relative value
sum and weight.  `parity` is `pos.side_to_move() == sideToMove`. -/
def estLoop (idx : Index) (step : Nat → Nat → Nat) :
    Nat → Option ExpEntry → Nat → Bool → Int → Int → Int → Int × Int
  | 0, _, _, _, _, vs, vw => (vs, vw)
  | _ + 1, none, _, _, _, vs, vw => (vs, vw)
  | r + 1, some cur, key, parity, mult, vs, vw =>
    if cur.depth < MIN_EXP_DEPTH then (vs, vw)
    else
      let vs2 := vs + cur.value * cur.depth * mult * (if parity then 1 else -1)
      let vw2 := vw + cur.depth * mult
      let key2 := step key cur.move
      estLoop idx step r (bestNext (chainAt idx key2)) key2 (!parity) (mult + 1) vs2 vw2

/-- The estimate attached to one candidate chain node: the sentinel
"no estimate" (`VALUE_NONE`, embedded as `none`) exactly when the walk
performs no step, i.e. when the candidate itself is below
`MIN_EXP_DEPTH`; otherwise `valueSum / valueWeight` (C++ `int64_t`
division, truncating). -/
def estimateOf (idx : Index) (step : Nat → Nat → Nat) (key0 : Nat) (t : ExpEntry) : Option Int :=
  if t.depth < MIN_EXP_DEPTH then none
  else
    let r := estLoop idx step experienceBookMovesAhead (some t) key0 true 1 0 0
    some (Int.tdiv r.1 r.2)

/-- The candidate list of `show_exp` before sorting: each node of the
probed chain paired with its estimate (experience.cpp:1187-1242). -/
def showExpEstimates (idx : Index) (step : Nat → Nat → Nat) (key0 : Nat) :
    List (ExpEntry × Option Int) :=
  (chainAt idx key0).map (fun t => (t, estimateOf idx step key0 t))

/-- The `stable_sort` comparator of experience.cpp:1248-1257 on the
estimate components. -/
def ltEstVal : Option Int → Option Int → Bool
  | some a, some b => decide (b < a)
  | none, _ => false
  | _, _ => true

/-- The comparator applied to candidate pairs (it reads only the
estimate). -/
def ltEst (a b : ExpEntry × Option Int) : Bool :=
  ltEstVal a.2 b.2

/-- Stable insertion used to embed `std::stable_sort`: a new element is
placed before the first existing element it strictly precedes, hence
after every element it ties with. -/
def sInsert {α : Type} (lt : α → α → Bool) (x : α) : List α → List α
  | [] => [x]
  | y :: ys => if lt x y then x :: y :: ys else y :: sInsert lt x ys

/-- Stable sort by a strict comparator (embedding of
`std::stable_sort`). -/
def stableSortBy {α : Type} (lt : α → α → Bool) (l : List α) : List α :=
  l.foldl (fun acc x => sInsert lt x acc) []

/-- The ranked candidate list `show_exp` prints (experience.cpp:1245). -/
def showExpSorted (idx : Index) (step : Nat → Nat → Nat) (key0 : Nat) :
    List (ExpEntry × Option Int) :=
  stableSortBy ltEst (showExpEstimates idx step key0)

/-! ## Properties of the chain index -/

/-- The identity of a record inside the index: its fingerprint together
with its move. -/
def entryPair (e : ExpEntry) : Nat × Nat :=
  (e.key, e.move)

/-- The comparison-order relation of the chains: the earlier node is not
beaten by the later one (descending depth-then-value). -/
def compGE (a b : ExpEntry) : Prop :=
  0 ≤ a.compare b

instance (a b : ExpEntry) : Decidable (compGE a b) :=
  inferInstanceAs (Decidable (0 ≤ a.compare b))

/-- Basic shape invariant of the index: every node sits in the chain of
its own fingerprint and no chain carries a move twice. -/
def ChainsWF (idx : Index) : Prop :=
  ∀ k, (∀ x ∈ chainAt idx k, x.key = k) ∧ ((chainAt idx k).map ExpEntry.move).Nodup

/-- The records `rs` are all new to `idx`: no (fingerprint, move) of `rs`
is already present. -/
def FreshFor (rs : List ExpEntry) (idx : Index) : Prop :=
  ∀ e ∈ rs, ∀ x ∈ chainAt idx e.key, x.move ≠ e.move

theorem compare_antisymm (a b : ExpEntry) : a.compare b = -(b.compare a) := by
  unfold ExpEntry.compare
  split <;> split <;> omega

theorem compGE_trans {a b c : ExpEntry} (h1 : compGE a b) (h2 : compGE b c) : compGE a c := by
  unfold compGE ExpEntry.compare at *
  by_cases hab : a.depth = b.depth <;> by_cases hbc : b.depth = c.depth <;>
    by_cases hac : a.depth = c.depth <;> simp_all <;> omega

theorem chainInsertAfter_perm (e : ExpEntry) (c : List ExpEntry) :
    (chainInsertAfter e c).Perm (e :: c) := by
  induction c with
  | nil => simp [chainInsertAfter]
  | cons x rest ih =>
    unfold chainInsertAfter
    split
    · exact List.Perm.swap e x rest
    · exact (List.Perm.cons x ih).trans (List.Perm.swap e x rest)

theorem chainInsert_perm (e : ExpEntry) (c : List ExpEntry) :
    (chainInsert e c).Perm (e :: c) := by
  cases c with
  | nil => simp [chainInsert]
  | cons x rest =>
    simp only [chainInsert]
    split
    · exact List.Perm.refl _
    · exact (List.Perm.cons x (chainInsertAfter_perm e rest)).trans (List.Perm.swap e x rest)

theorem chainInsert_mem {e y : ExpEntry} {c : List ExpEntry} :
    y ∈ chainInsert e c ↔ y = e ∨ y ∈ c := by
  rw [(chainInsert_perm e c).mem_iff, List.mem_cons]

theorem chainFind_eq_none_iff {m : Nat} {c : List ExpEntry} :
    chainFind m c = none ↔ ∀ x ∈ c, x.move ≠ m := by
  induction c with
  | nil => simp [chainFind]
  | cons x rest ih =>
    unfold chainFind
    by_cases h : x.move = m
    · simp [h]
    · simp [h, ih]

theorem chainFind_some {m : Nat} {c : List ExpEntry} {x : ExpEntry}
    (h : chainFind m c = some x) : x ∈ c ∧ x.move = m := by
  induction c with
  | nil => simp [chainFind] at h
  | cons y rest ih =>
    unfold chainFind at h
    by_cases hy : y.move = m
    · simp [hy] at h
      exact ⟨by simp [h.symm], h ▸ hy⟩
    · simp [hy] at h
      rcases ih h with ⟨h1, h2⟩
      exact ⟨List.mem_cons_of_mem _ h1, h2⟩

theorem chainMergeFirst_length (e : ExpEntry) (c : List ExpEntry) :
    (chainMergeFirst e c).length = c.length := by
  induction c with
  | nil => rfl
  | cons x rest ih =>
    unfold chainMergeFirst
    split <;> simp [ih]

/-- Linking at a different fingerprint leaves a chain untouched. -/
theorem link_chainAt_other (e : ExpEntry) (idx : Index) {k : Nat} (h : k ≠ e.key) :
    chainAt (link_entry e idx).1 k = chainAt idx k := by
  have h3 : ¬ (e.key = k) := fun he => h he.symm
  unfold link_entry
  cases hl : alookup idx e.key with
  | none => simp [chainAt, h3]
  | some c =>
    cases hf : chainFind e.move c <;>
      simp [chainAt, hf, alookup_aupdate_other h]

/-- Linking a record whose move is new to its chain performs the sorted
insertion and reports "inserted". -/
theorem link_chainAt_self_insert (e : ExpEntry) (idx : Index)
    (h : ∀ x ∈ chainAt idx e.key, x.move ≠ e.move) :
    (link_entry e idx).2 = true ∧
    chainAt (link_entry e idx).1 e.key = chainInsert e (chainAt idx e.key) := by
  unfold link_entry
  cases hl : alookup idx e.key with
  | none => simp [chainAt, hl, chainInsert]
  | some c =>
    have hc : chainAt idx e.key = c := by simp [chainAt, hl]
    have hfind : chainFind e.move c = none := chainFind_eq_none_iff.2 (hc ▸ h)
    simp [hfind, chainAt, alookup_aupdate_self, hl]

/-- Linking a record whose (fingerprint, move) already has a node merges
in place and reports "merged" (a duplicate). -/
theorem link_chainAt_self_merge (e : ExpEntry) (idx : Index) {x : ExpEntry}
    (h : chainFind e.move (chainAt idx e.key) = some x) :
    (link_entry e idx).2 = false ∧
    chainAt (link_entry e idx).1 e.key = chainMergeFirst e (chainAt idx e.key) := by
  unfold link_entry
  cases hl : alookup idx e.key with
  | none => simp [chainAt, hl, chainFind] at h
  | some c =>
    have hc : chainAt idx e.key = c := by simp [chainAt, hl]
    rw [hc] at h
    simp [h, chainAt, alookup_aupdate_self, hl]

/-- One step of the linking induction: linking a fresh record keeps the
shape invariant, keeps the remaining records fresh, and rewrites exactly
the chain of its fingerprint by sorted insertion. -/
theorem link_step (e : ExpEntry) (rest : List ExpEntry) (idx : Index)
    (hwf : ChainsWF idx) (hnd : ((e :: rest).map entryPair).Nodup)
    (hfr : FreshFor (e :: rest) idx) :
    ChainsWF (link_entry e idx).1 ∧ FreshFor rest (link_entry e idx).1 ∧
    (rest.map entryPair).Nodup ∧
    chainAt (link_entry e idx).1 e.key = chainInsert e (chainAt idx e.key) := by
  have hfr_e : ∀ x ∈ chainAt idx e.key, x.move ≠ e.move :=
    hfr e (List.mem_cons_self e rest)
  have hins := (link_chainAt_self_insert e idx hfr_e).2
  have hpair_e : entryPair e ∉ rest.map entryPair := by
    have := hnd
    rw [List.map_cons, List.nodup_cons] at this
    exact this.1
  have hnd_rest : (rest.map entryPair).Nodup := by
    have := hnd
    rw [List.map_cons, List.nodup_cons] at this
    exact this.2
  refine ⟨?_, ?_, hnd_rest, hins⟩
  · intro k
    by_cases hk : k = e.key
    · subst hk
      rw [hins]
      constructor
      · intro x hx
        rcases chainInsert_mem.1 hx with rfl | hx2
        · rfl
        · exact (hwf e.key).1 x hx2
      · rw [((chainInsert_perm e (chainAt idx e.key)).map ExpEntry.move).nodup_iff]
        rw [List.map_cons, List.nodup_cons]
        refine ⟨?_, (hwf e.key).2⟩
        intro hmem
        rcases List.mem_map.1 hmem with ⟨x, hx, hxm⟩
        exact hfr_e x hx hxm
    · rw [link_chainAt_other e idx hk]
      exact hwf k
  · intro e2 he2 x hx
    by_cases hk : e2.key = e.key
    · rw [hk, hins] at hx
      rcases chainInsert_mem.1 hx with rfl | hx2
      · intro hmv
        apply hpair_e
        have : entryPair e2 = entryPair x := by
          unfold entryPair
          rw [hk, hmv]
        rw [← this]
        exact List.mem_map_of_mem entryPair he2
      · have := hfr e2 (List.mem_cons_of_mem e he2) x
        rw [hk] at this
        exact this hx2
    · rw [link_chainAt_other e idx hk] at hx
      exact hfr e2 (List.mem_cons_of_mem e he2) x hx

/-- Linking a list of pairwise-fresh records populates the chains with
exactly those records (as a permutation per fingerprint) and keeps the
shape invariant. -/
theorem linkList_props (rs : List ExpEntry) : ∀ (idx : Index), ChainsWF idx →
    (rs.map entryPair).Nodup → FreshFor rs idx →
    ChainsWF (linkList rs idx) ∧
    ∀ k, (chainAt (linkList rs idx) k).Perm
        (rs.filter (fun e => decide (e.key = k)) ++ chainAt idx k) := by
  induction rs with
  | nil =>
    intro idx hwf _ _
    exact ⟨hwf, fun k => by simp [linkList]⟩
  | cons e rest ih =>
    intro idx hwf hnd hfr
    obtain ⟨hwf1, hfr1, hnd1, hins⟩ := link_step e rest idx hwf hnd hfr
    have hstep : linkList (e :: rest) idx = linkList rest (link_entry e idx).1 := rfl
    obtain ⟨hwfF, hpermF⟩ := ih (link_entry e idx).1 hwf1 hnd1 hfr1
    refine ⟨hstep ▸ hwfF, ?_⟩
    intro k
    rw [hstep]
    refine (hpermF k).trans ?_
    by_cases hk : k = e.key
    · subst hk
      rw [hins]
      have h1 : (rest.filter (fun x => decide (x.key = e.key)) ++
          chainInsert e (chainAt idx e.key)).Perm
          (rest.filter (fun x => decide (x.key = e.key)) ++ (e :: chainAt idx e.key)) :=
        List.Perm.append_left _ (chainInsert_perm e (chainAt idx e.key))
      refine h1.trans ?_
      have h2 := @List.perm_middle _ e (rest.filter (fun x => decide (x.key = e.key)))
        (chainAt idx e.key)
      refine h2.trans ?_
      rw [List.filter_cons]
      simp
    · rw [link_chainAt_other e idx hk]
      rw [List.filter_cons]
      have : (decide (e.key = k)) = false := by
        simp
        exact fun he => hk he.symm
      rw [this]
      simp

/-! ## Properties of the save path -/

/-- Concatenated serialization of a record list. -/
def joinEnc (l : List ExpEntry) : List Nat :=
  (l.map encodeEntry).flatten

/-- The minimum-depth filter applied by every save loop. -/
def minDepthFilter (l : List ExpEntry) : List ExpEntry :=
  l.filter (fun e => decide (MIN_EXP_DEPTH ≤ e.depth))

/-- A file-system transition that can only have touched the file `n`:
all failure-injection sets and all other files are unchanged. -/
def sameOtherFiles (fs fs2 : FS) (n : FName) : Prop :=
  fs2.openFails = fs.openFails ∧ fs2.writeFails = fs.writeFails ∧
  fs2.removeFails = fs.removeFails ∧ fs2.renameFails = fs.renameFails ∧
  ∀ m, m ≠ n → fs2.lookupFile m = fs.lookupFile m

theorem sameOtherFiles_refl (fs : FS) (n : FName) : sameOtherFiles fs fs n :=
  ⟨rfl, rfl, rfl, rfl, fun _ _ => rfl⟩

theorem sameOtherFiles_trans {fs fs2 fs3 : FS} {n : FName}
    (h1 : sameOtherFiles fs fs2 n) (h2 : sameOtherFiles fs2 fs3 n) :
    sameOtherFiles fs fs3 n := by
  obtain ⟨a1, b1, c1, d1, e1⟩ := h1
  obtain ⟨a2, b2, c2, d2, e2⟩ := h2
  exact ⟨a2.trans a1, b2.trans b1, c2.trans c1, d2.trans d1,
    fun m hm => (e2 m hm).trans (e1 m hm)⟩

theorem setFile_sameOther (fs : FS) (n : FName) (c : List Nat) :
    sameOtherFiles fs (fs.setFile n c) n := by
  refine ⟨rfl, rfl, rfl, rfl, ?_⟩
  intro m hm
  unfold FS.setFile FS.lookupFile
  exact alookup_aupdate_other hm

theorem outWrite_sameOther (fs : FS) (n : FName) (bytes : List Nat) :
    sameOtherFiles fs (outWrite fs n bytes).1 n := by
  unfold outWrite
  split
  · exact sameOtherFiles_refl fs n
  · exact setFile_sameOther fs n _

theorem setFile_content (fs : FS) (n : FName) (c : List Nat) :
    (fs.setFile n c).content n = c := by
  unfold FS.setFile FS.content FS.lookupFile
  rw [alookup_aupdate_self]
  rfl

theorem outWrite_append (fs : FS) (n : FName) (bytes : List Nat) :
    ∃ w, (outWrite fs n bytes).1.content n = fs.content n ++ w := by
  unfold outWrite
  split
  · exact ⟨[], by simp⟩
  · exact ⟨bytes, setFile_content fs n _⟩

theorem outWrite_clean {fs : FS} {n : FName} (h : n ∉ fs.writeFails) (bytes : List Nat) :
    outWrite fs n bytes = (fs.setFile n (fs.content n ++ bytes), true) := by
  unfold outWrite
  rw [if_neg h]

theorem write_entry_append (fn : FName) (fs : FS) (buf : List Nat) (e : Option ExpEntry)
    (force : Bool) :
    ∃ w, ((write_entry fn fs buf e force).1.1).content fn = fs.content fn ++ w ∧
      sameOtherFiles fs (write_entry fn fs buf e force).1.1 fn := by
  cases e with
  | none =>
    simp only [write_entry]
    split
    · rcases outWrite_append fs fn buf with ⟨w, hw⟩
      exact ⟨w, hw, outWrite_sameOther fs fn _⟩
    · exact ⟨[], by simp, sameOtherFiles_refl fs fn⟩
  | some x =>
    simp only [write_entry]
    split
    · rcases outWrite_append fs fn (buf ++ encodeEntry x) with ⟨w, hw⟩
      exact ⟨w, hw, outWrite_sameOther fs fn _⟩
    · exact ⟨[], by simp, sameOtherFiles_refl fs fn⟩

theorem saveEntries_append (fn : FName) (es : List ExpEntry) : ∀ (fs : FS) (buf : List Nat),
    ∃ w, ((saveEntries fn es fs buf).1.1).content fn = fs.content fn ++ w ∧
      sameOtherFiles fs (saveEntries fn es fs buf).1.1 fn := by
  induction es with
  | nil => intro fs buf; exact ⟨[], by simp [saveEntries], sameOtherFiles_refl fs fn⟩
  | cons e rest ih =>
    intro fs buf
    simp only [saveEntries]
    split
    · rcases write_entry_append fn fs buf (some e) false with ⟨w1, hw1, hs1⟩
      split
      · rcases ih (write_entry fn fs buf (some e) false).1.1
          (write_entry fn fs buf (some e) false).1.2 with ⟨w2, hw2, hs2⟩
        exact ⟨w1 ++ w2, by rw [hw2, hw1, List.append_assoc], sameOtherFiles_trans hs1 hs2⟩
      · exact ⟨w1, hw1, hs1⟩
    · exact ih fs buf

theorem content_of_not_exists {fs : FS} {fn : FName} (h : fs.fileExists fn = false) :
    fs.content fn = [] := by
  unfold FS.fileExists at h
  unfold FS.content
  cases hl : fs.lookupFile fn with
  | none => rfl
  | some c => rw [hl] at h; simp at h

theorem openStage_sameOther (fs : FS) (fn : FName) :
    sameOtherFiles fs (openStage fs fn) fn := by
  unfold openStage
  split
  · exact sameOtherFiles_refl fs fn
  · exact setFile_sameOther fs fn []

theorem openStage_content (fs : FS) (fn : FName) :
    (openStage fs fn).content fn = fs.content fn := by
  unfold openStage
  split
  · rfl
  · rename_i hex
    rw [setFile_content, content_of_not_exists (Bool.of_not_eq_true hex)]

theorem sigStage_append (fs : FS) (fn : FName) :
    ∃ w, (sigStage fs fn).1.content fn = fs.content fn ++ w ∧
      sameOtherFiles fs (sigStage fs fn).1 fn := by
  unfold sigStage
  split
  · rcases outWrite_append fs fn signatureBytes with ⟨w, hw⟩
    exact ⟨w, hw, outWrite_sameOther fs fn _⟩
  · exact ⟨[], by simp, sameOtherFiles_refl fs fn⟩

theorem save_impl_append (store : Store) (fn : FName) (saveAll : Bool) (fs : FS) :
    ∃ w, ((save_impl store fn saveAll fs).1).content fn = fs.content fn ++ w ∧
      sameOtherFiles fs (save_impl store fn saveAll fs).1 fn := by
  have happend : ∀ (fsA fsB : FS) (w1 : List Nat),
      fsA.content fn = fs.content fn ++ w1 → sameOtherFiles fs fsA fn →
      (∃ w2, fsB.content fn = fsA.content fn ++ w2 ∧ sameOtherFiles fsA fsB fn) →
      ∃ w, fsB.content fn = fs.content fn ++ w ∧ sameOtherFiles fs fsB fn := by
    intro fsA fsB w1 h1 hs1 ⟨w2, h2, hs2⟩
    exact ⟨w1 ++ w2, by rw [h2, h1, List.append_assoc], sameOtherFiles_trans hs1 hs2⟩
  have h0 : (openStage fs fn).content fn = fs.content fn ++ [] ∧
      sameOtherFiles fs (openStage fs fn) fn := by
    rw [openStage_content]
    exact ⟨by simp, openStage_sameOther fs fn⟩
  have hs := sigStage_append (openStage fs fn) fn
  rcases happend _ _ [] h0.1 h0.2 hs with ⟨ws, hws, hss⟩
  rcases happend _ _ ws hws hss
    (saveEntries_append fn (if saveAll = true then idxEntries store.index else [])
      (sigStage (openStage fs fn) fn).1 []) with ⟨w1, hw1, hs1⟩
  rcases happend _ _ w1 hw1 hs1 (saveEntries_append fn store.pendingPV _ _) with ⟨w2, hw2, hs2⟩
  rcases happend _ _ w2 hw2 hs2 (saveEntries_append fn store.pendingMPV _ _) with ⟨w3, hw3, hs3⟩
  rcases happend _ _ w3 hw3 hs3 (write_entry_append fn _ _ none true) with ⟨w4, hw4, hs4⟩
  simp only [save_impl]
  by_cases h1 : fn ∈ fs.openFails
  · rw [if_pos h1]
    exact ⟨[], by simp, sameOtherFiles_refl fs fn⟩
  rw [if_neg h1]
  by_cases h2 : (sigStage (openStage fs fn) fn).2 = false
  · rw [if_pos h2]
    exact ⟨ws, hws, hss⟩
  rw [if_neg h2]
  by_cases h3 : (saveEntries fn (if saveAll = true then idxEntries store.index else [])
      (sigStage (openStage fs fn) fn).1 []).2 = false
  · rw [if_pos h3]
    exact ⟨w1, hw1, hs1⟩
  rw [if_neg h3]
  by_cases h4 : (saveEntries fn store.pendingPV
      (saveEntries fn (if saveAll = true then idxEntries store.index else [])
        (sigStage (openStage fs fn) fn).1 []).1.1
      (saveEntries fn (if saveAll = true then idxEntries store.index else [])
        (sigStage (openStage fs fn) fn).1 []).1.2).2 = false
  · rw [if_pos h4]
    exact ⟨w2, hw2, hs2⟩
  rw [if_neg h4]
  by_cases h5 : (saveEntries fn store.pendingMPV
      (saveEntries fn store.pendingPV
        (saveEntries fn (if saveAll = true then idxEntries store.index else [])
          (sigStage (openStage fs fn) fn).1 []).1.1
        (saveEntries fn (if saveAll = true then idxEntries store.index else [])
          (sigStage (openStage fs fn) fn).1 []).1.2).1.1
      (saveEntries fn store.pendingPV
        (saveEntries fn (if saveAll = true then idxEntries store.index else [])
          (sigStage (openStage fs fn) fn).1 []).1.1
        (saveEntries fn (if saveAll = true then idxEntries store.index else [])
          (sigStage (openStage fs fn) fn).1 []).1.2).1.2).2 = false
  · rw [if_pos h5]
    exact ⟨w3, hw3, hs3⟩
  rw [if_neg h5]
  exact ⟨w4, hw4, hs4⟩

theorem minDepthFilter_cons (e : ExpEntry) (l : List ExpEntry) :
    minDepthFilter (e :: l) =
      if MIN_EXP_DEPTH ≤ e.depth then e :: minDepthFilter l else minDepthFilter l := by
  unfold minDepthFilter
  rw [List.filter_cons]
  by_cases h : MIN_EXP_DEPTH ≤ e.depth <;> simp [h]

theorem joinEnc_cons (e : ExpEntry) (l : List ExpEntry) :
    joinEnc (e :: l) = encodeEntry e ++ joinEnc l := by
  simp [joinEnc]

theorem joinEnc_append (l1 l2 : List ExpEntry) :
    joinEnc (l1 ++ l2) = joinEnc l1 ++ joinEnc l2 := by
  simp [joinEnc]

theorem joinEnc_length (l : List ExpEntry) : (joinEnc l).length = entrySize * l.length := by
  induction l with
  | nil => simp [joinEnc, entrySize]
  | cons e rest ih =>
    rw [joinEnc_cons, List.length_append, ih, encodeEntry_length]
    simp only [List.length_cons, entrySize]
    omega

theorem write_entry_clean {fn : FName} {fs : FS} (h : fn ∉ fs.writeFails)
    (buf : List Nat) (e : Option ExpEntry) (force : Bool) :
    (write_entry fn fs buf e force).2 = true ∧
    sameOtherFiles fs (write_entry fn fs buf e force).1.1 fn ∧
    (write_entry fn fs buf e force).1.1.content fn ++ (write_entry fn fs buf e force).1.2 =
      fs.content fn ++ buf ++ (match e with | some x => encodeEntry x | none => []) := by
  cases e with
  | none =>
    simp only [write_entry]
    split
    · rw [outWrite_clean h buf]
      refine ⟨rfl, setFile_sameOther fs fn _, ?_⟩
      rw [setFile_content]
    · exact ⟨rfl, sameOtherFiles_refl fs fn, by simp⟩
  | some x =>
    simp only [write_entry]
    split
    · rw [outWrite_clean h (buf ++ encodeEntry x)]
      refine ⟨rfl, setFile_sameOther fs fn _, ?_⟩
      rw [setFile_content]
      simp
    · exact ⟨rfl, sameOtherFiles_refl fs fn, by simp⟩

theorem saveEntries_clean (fn : FName) (es : List ExpEntry) : ∀ (fs : FS) (buf : List Nat),
    fn ∉ fs.writeFails →
    (saveEntries fn es fs buf).2 = true ∧
    sameOtherFiles fs (saveEntries fn es fs buf).1.1 fn ∧
    (saveEntries fn es fs buf).1.1.content fn ++ (saveEntries fn es fs buf).1.2 =
      fs.content fn ++ buf ++ joinEnc (minDepthFilter es) := by
  induction es with
  | nil =>
    intro fs buf h
    refine ⟨rfl, sameOtherFiles_refl fs fn, ?_⟩
    simp [saveEntries, minDepthFilter, joinEnc]
  | cons e rest ih =>
    intro fs buf h
    simp only [saveEntries]
    split
    · rename_i hdep
      obtain ⟨hok, hsame, hcontent⟩ := write_entry_clean h buf (some e) false
      rw [hok, if_pos rfl]
      have h2 : fn ∉ (write_entry fn fs buf (some e) false).1.1.writeFails := by
        rw [hsame.2.1]; exact h
      obtain ⟨hok2, hsame2, hcontent2⟩ :=
        ih (write_entry fn fs buf (some e) false).1.1 (write_entry fn fs buf (some e) false).1.2 h2
      refine ⟨hok2, sameOtherFiles_trans hsame hsame2, ?_⟩
      rw [hcontent2, hcontent, minDepthFilter_cons, if_pos hdep, joinEnc_cons]
      simp [List.append_assoc]
    · rename_i hdep
      obtain ⟨hok2, hsame2, hcontent2⟩ := ih fs buf h
      refine ⟨hok2, hsame2, ?_⟩
      rw [hcontent2, minDepthFilter_cons, if_neg hdep]

/-- When the whole batch fits below `WriteBufferSize`, no intermediate
flush happens: the bytes only accumulate in the write buffer and the
file system is untouched. -/
theorem saveEntries_noflush (fn : FName) (es : List ExpEntry) : ∀ (fs : FS) (buf : List Nat),
    buf.length + entrySize * es.length < WriteBufferSize →
    saveEntries fn es fs buf = ((fs, buf ++ joinEnc (minDepthFilter es)), true) := by
  induction es with
  | nil =>
    intro fs buf _
    simp [saveEntries, minDepthFilter, joinEnc]
  | cons e rest ih =>
    intro fs buf hlen
    simp only [saveEntries]
    split
    · rename_i hdep
      have hnof : ¬ (false = true ∨ WriteBufferSize ≤ (buf ++ encodeEntry e).length) := by
        simp only [Bool.false_eq_true, false_or, List.length_append, encodeEntry_length, not_le]
        simp only [List.length_cons, entrySize] at hlen
        omega
      have hwe : write_entry fn fs buf (some e) false = ((fs, buf ++ encodeEntry e), true) := by
        simp only [write_entry]
        rw [if_neg hnof]
      rw [hwe]
      simp only [if_pos rfl]
      rw [ih fs (buf ++ encodeEntry e) (by
        simp only [List.length_append, encodeEntry_length, List.length_cons, entrySize] at hlen ⊢
        omega)]
      rw [minDepthFilter_cons, if_pos hdep, joinEnc_cons]
      simp [List.append_assoc]
    · rename_i hdep
      rw [ih fs buf (by simp only [List.length_cons, entrySize] at hlen ⊢; omega)]
      rw [minDepthFilter_cons, if_neg hdep]

theorem write_entry_force_buf (fn : FName) (fs : FS) (buf : List Nat) (e : Option ExpEntry) :
    (write_entry fn fs buf e true).1.2 = [] := by
  cases e <;> simp [write_entry]

/-- A full or incremental save on a clean file system with a fresh
(missing) target succeeds: the target afterwards holds the signature
followed by the serialized minimum-depth-filtered records (index content
when in full mode, then the pending buffers), the pending buffers are
cleared, and nothing else changes. -/
theorem save_impl_clean (store : Store) (fn : FName) (saveAll : Bool) (fs : FS)
    (ho : fn ∉ fs.openFails) (hw : fn ∉ fs.writeFails) (hmiss : fs.lookupFile fn = none) :
    (save_impl store fn saveAll fs).2.2 = true ∧
    (save_impl store fn saveAll fs).2.1 = { store with pendingPV := [], pendingMPV := [] } ∧
    (save_impl store fn saveAll fs).1.content fn =
      signatureBytes ++ joinEnc (minDepthFilter
        ((if saveAll = true then idxEntries store.index else []) ++
          store.pendingPV ++ store.pendingMPV)) ∧
    sameOtherFiles fs (save_impl store fn saveAll fs).1 fn := by
  have hopen : openStage fs fn = fs.setFile fn [] := by
    unfold openStage FS.fileExists
    rw [hmiss]
    simp
  have hcon0 : (fs.setFile fn []).content fn = [] := setFile_content fs fn []
  have hw0 : fn ∉ (fs.setFile fn []).writeFails := hw
  have hsig : sigStage (openStage fs fn) fn =
      ((fs.setFile fn []).setFile fn ([] ++ signatureBytes), true) := by
    rw [hopen]
    unfold sigStage
    rw [hcon0]
    simp only [List.length_nil, if_pos]
    rw [outWrite_clean hw0 signatureBytes, hcon0]
  set fs1 := (fs.setFile fn []).setFile fn ([] ++ signatureBytes) with hfs1
  have hcon1 : fs1.content fn = signatureBytes := by
    rw [hfs1, setFile_content]
    simp
  have hw1 : fn ∉ fs1.writeFails := hw
  have hsame1 : sameOtherFiles fs fs1 fn :=
    sameOtherFiles_trans (setFile_sameOther fs fn [])
      (setFile_sameOther (fs.setFile fn []) fn ([] ++ signatureBytes))
  obtain ⟨hok1, hsameA, hcnt1⟩ := saveEntries_clean fn
    (if saveAll = true then idxEntries store.index else []) fs1 [] hw1
  set r1 := saveEntries fn (if saveAll = true then idxEntries store.index else []) fs1 []
    with hr1
  have hwA : fn ∉ r1.1.1.writeFails := by rw [hsameA.2.1]; exact hw1
  obtain ⟨hok2, hsameB, hcnt2⟩ := saveEntries_clean fn store.pendingPV r1.1.1 r1.1.2 hwA
  set r2 := saveEntries fn store.pendingPV r1.1.1 r1.1.2 with hr2
  have hwB : fn ∉ r2.1.1.writeFails := by rw [hsameB.2.1]; exact hwA
  obtain ⟨hok3, hsameC, hcnt3⟩ := saveEntries_clean fn store.pendingMPV r2.1.1 r2.1.2 hwB
  set r3 := saveEntries fn store.pendingMPV r2.1.1 r2.1.2 with hr3
  have hwC : fn ∉ r3.1.1.writeFails := by rw [hsameC.2.1]; exact hwB
  obtain ⟨hokF, hsameF, hcntF⟩ := write_entry_clean hwC r3.1.2 none true
  have hbufF := write_entry_force_buf fn r3.1.1 r3.1.2 none
  have hfinal : (write_entry fn r3.1.1 r3.1.2 none true).1.1.content fn =
      signatureBytes ++ joinEnc (minDepthFilter
        ((if saveAll = true then idxEntries store.index else []) ++
          store.pendingPV ++ store.pendingMPV)) := by
    have := hcntF
    rw [hbufF, List.append_nil] at this
    rw [this, List.append_nil, hcnt3, hcnt2, hcnt1, hcon1]
    simp [minDepthFilter, List.filter_append, joinEnc_append, List.append_assoc]
  simp only [save_impl]
  rw [if_neg ho]
  have hc2 : ¬ ((sigStage (openStage fs fn) fn).2 = false) := by
    rw [hsig]
    simp
  rw [hsig]
  simp only [← hfs1]
  have hc3 : ¬ (r1.2 = false) := by rw [hok1]; simp
  rw [if_neg (by simp : ¬ (((fs1, true) : FS × Bool).2 = false)), ← hr1, if_neg hc3]
  have hc4 : ¬ (r2.2 = false) := by rw [hok2]; simp
  rw [← hr2, if_neg hc4]
  have hc5 : ¬ (r3.2 = false) := by rw [hok3]; simp
  rw [← hr3, if_neg hc5]
  refine ⟨rfl, rfl, hfinal, ?_⟩
  exact sameOtherFiles_trans hsame1 (sameOtherFiles_trans hsameA
    (sameOtherFiles_trans hsameB (sameOtherFiles_trans hsameC hsameF)))

/-! ## Load decodes what save wrote -/

theorem loadEntries_joinEnc (rs : List ExpEntry) : ∀ (idx : Index), (∀ e ∈ rs, EntryWF e) →
    loadEntries (joinEnc rs) rs.length idx = (linkList rs idx, true) := by
  induction rs with
  | nil => intro idx _; simp [joinEnc, loadEntries, linkList]
  | cons e rest ih =>
    intro idx hwf
    rw [joinEnc_cons]
    simp only [loadEntries, List.length_cons]
    have hguard : ¬ ((encodeEntry e ++ joinEnc rest).length < entrySize) := by
      rw [List.length_append, encodeEntry_length]
      simp only [entrySize]
      omega
    rw [if_neg hguard]
    have hencLen : (encodeEntry e).length = entrySize := encodeEntry_length e
    rw [List.take_left' hencLen, List.drop_left' hencLen]
    rw [decode_encode e (hwf e (List.mem_cons_self e rest))]
    exact ih (link_entry e idx).1 (fun x hx => hwf x (List.mem_cons_of_mem e hx))

/-- Loading a file that holds the signature followed by serialized
well-formed records links exactly those records, in order, and
succeeds. -/
theorem loadFile_decodes (rs : List ExpEntry) (idx : Index)
    (hwf : ∀ e ∈ rs, EntryWF e)
    (hsize : signatureLength + entrySize * rs.length < 2 ^ 64) :
    loadFile (some (signatureBytes ++ joinEnc rs)) idx = (linkList rs idx, true) := by
  simp only [signatureLength, entrySize] at hsize
  have hblen : (signatureBytes ++ joinEnc rs).length = 5 + 24 * rs.length := by
    rw [List.length_append, joinEnc_length]
    simp [signatureBytes, entrySize]
  have hmod1 : (5 + 24 * rs.length) % 2 ^ 64 = 5 + 24 * rs.length :=
    Nat.mod_eq_of_lt (by omega)
  have harg : 5 + 24 * rs.length + (2 ^ 64 - 5) = 24 * rs.length + 2 ^ 64 := by omega
  have hexp : (5 + 24 * rs.length + (2 ^ 64 - 5)) % 2 ^ 64 = 24 * rs.length := by
    rw [harg, Nat.add_mod_right]
    exact Nat.mod_eq_of_lt (by omega)
  have hcount : 24 * rs.length / 24 = rs.length := Nat.mul_div_cancel_left _ (by norm_num)
  have hsigLen : signatureBytes.length = signatureLength := rfl
  simp only [loadFile, signatureLength, entrySize]
  rw [hblen, hmod1, hexp, hcount]
  rw [if_neg (by omega : ¬ (5 + 24 * rs.length = 0))]
  rw [if_neg (by omega : ¬ (rs.length * 24 ≠ 24 * rs.length))]
  rw [if_neg (by omega : ¬ (5 + 24 * rs.length < 5))]
  have htake : (signatureBytes ++ joinEnc rs).take 5 = signatureBytes :=
    List.take_left' hsigLen
  have hdrop : (signatureBytes ++ joinEnc rs).drop 5 = joinEnc rs :=
    List.drop_left' hsigLen
  rw [htake, hdrop]
  rw [if_neg (by simp : ¬ (signatureBytes ≠ signatureBytes))]
  exact loadEntries_joinEnc rs idx hwf

/-! ## Claims -/

/-- C1: For every load that fails (file cannot be opened, file empty,
payload size not a multiple of the record width, signature mismatch, or
a mid-stream short read of a record), the in-memory index is left in its
pre-call state; in particular (instantiating `idx := []`), loading a
corrupt file into a fresh store leaves that store empty.  The short-read
branch of the record loop is unreachable for a fixed byte content
because the record count is computed from the payload size, so every
failing path returns before the first `link_entry`. -/
theorem claim1_load_failure_preserves_index (file : Option (List Nat)) (idx : Index)
    (h : (loadFile file idx).2 = false) :
    (loadFile file idx).1 = idx := by
  cases file with
  | none => rfl
  | some bytes =>
    simp only [loadFile] at h ⊢
    by_cases h1 : bytes.length % 2 ^ 64 = 0
    · rw [if_pos h1]
    rw [if_neg h1] at h ⊢
    by_cases h2 : (bytes.length % 2 ^ 64 + (2 ^ 64 - signatureLength)) % 2 ^ 64 / entrySize *
        entrySize ≠ (bytes.length % 2 ^ 64 + (2 ^ 64 - signatureLength)) % 2 ^ 64
    · rw [if_pos h2]
    rw [if_neg h2] at h ⊢
    by_cases h3 : bytes.length < signatureLength
    · rw [if_pos h3]
    rw [if_neg h3] at h ⊢
    by_cases h4 : bytes.take signatureLength ≠ signatureBytes
    · rw [if_pos h4]
    rw [if_neg h4] at h ⊢
    exfalso
    have hle : entrySize *
        ((bytes.length % 2 ^ 64 + (2 ^ 64 - signatureLength)) % 2 ^ 64 / entrySize) ≤
        (bytes.drop signatureLength).length := by
      rw [List.length_drop]
      simp only [entrySize, signatureLength] at h2 h3 ⊢
      omega
    have := loadEntries_success _ (bytes.drop signatureLength) idx hle
    rw [this] at h
    exact Bool.true_eq_false.mp h

/-- Witness for C1 at a concrete corrupt file (a single byte: its size
is not signature plus a multiple of the record width) and a concrete
populated index. -/
theorem claim1_witness :
    (loadFile (some [0]) [(5, [⟨5, 1, 2, 7⟩])]).2 = false ∧
    (loadFile (some [0]) [(5, [⟨5, 1, 2, 7⟩])]).1 = [(5, [⟨5, 1, 2, 7⟩])] :=
  ⟨by decide, claim1_load_failure_preserves_index (some [0]) [(5, [⟨5, 1, 2, 7⟩])] (by decide)⟩

/-- C4: linking a record whose (fingerprint, move) pair already has a
chain node merges into the existing node (the chain is the in-place
merge, same length) and reports a duplicate; linking the identical
record twice leaves one node; a higher-depth duplicate updates the
stored node (prefer higher depth); a lower- or equal-depth duplicate
does not regress it. -/
theorem claim4_link_merge_idempotent (e : ExpEntry) (idx : Index) (x : ExpEntry)
    (hx : chainFind e.move (chainAt idx e.key) = some x)
    (k m : Nat) (v1 d1 v2 d2 v3 d3 v4 d4 : Int)
    (hhi : d1 < d2) (hlo : d4 ≤ d3) :
    ((link_entry e idx).2 = false ∧
      chainAt (link_entry e idx).1 e.key = chainMergeFirst e (chainAt idx e.key) ∧
      (chainAt (link_entry e idx).1 e.key).length = (chainAt idx e.key).length) ∧
    (∀ r : ExpEntry, chainAt (link_entry r (link_entry r []).1).1 r.key = [r]) ∧
    chainAt (link_entry ⟨k, m, v2, d2⟩ (link_entry ⟨k, m, v1, d1⟩ []).1).1 k = [⟨k, m, v2, d2⟩] ∧
    chainAt (link_entry ⟨k, m, v4, d4⟩ (link_entry ⟨k, m, v3, d3⟩ []).1).1 k = [⟨k, m, v3, d3⟩] := by
  obtain ⟨hmerge, hchain⟩ := link_chainAt_self_merge e idx hx
  refine ⟨⟨hmerge, hchain, by rw [hchain, chainMergeFirst_length]⟩, ?_, ?_, ?_⟩
  · intro r
    simp [link_entry, chainAt, chainFind, chainMergeFirst, ExpEntry.merge, aupdate]
  · simp [link_entry, chainAt, chainFind, chainMergeFirst, ExpEntry.merge, aupdate, hhi]
  · simp [link_entry, chainAt, chainFind, chainMergeFirst, ExpEntry.merge, aupdate,
      not_lt.2 hlo]

/-- Witness for C4 at concrete records: a duplicate (fingerprint 1,
move 2) merge, with depth pairs (4, 9) for the update case and (8, 6)
for the no-regress case. -/
theorem claim4_witness :
    chainFind 2 (chainAt [(1, [⟨1, 2, 3, 4⟩])] 1) = some ⟨1, 2, 3, 4⟩ ∧
    (4 : Int) < 9 ∧ (6 : Int) ≤ 8 ∧
    ((link_entry ⟨1, 2, 5, 6⟩ [(1, [⟨1, 2, 3, 4⟩])]).2 = false ∧
      chainAt (link_entry ⟨1, 2, 5, 6⟩ [(1, [⟨1, 2, 3, 4⟩])]).1 1 =
        chainMergeFirst ⟨1, 2, 5, 6⟩ (chainAt [(1, [⟨1, 2, 3, 4⟩])] 1) ∧
      (chainAt (link_entry ⟨1, 2, 5, 6⟩ [(1, [⟨1, 2, 3, 4⟩])]).1 1).length =
        (chainAt [(1, [⟨1, 2, 3, 4⟩])] 1).length) ∧
    (∀ r : ExpEntry, chainAt (link_entry r (link_entry r []).1).1 r.key = [r]) ∧
    chainAt (link_entry ⟨7, 8, 20, 9⟩ (link_entry ⟨7, 8, 10, 4⟩ []).1).1 7 = [⟨7, 8, 20, 9⟩] ∧
    chainAt (link_entry ⟨7, 8, 20, 6⟩ (link_entry ⟨7, 8, 10, 8⟩ []).1).1 7 = [⟨7, 8, 10, 8⟩] := by
  refine ⟨by decide, by decide, by decide, ?_⟩
  exact claim4_link_merge_idempotent ⟨1, 2, 5, 6⟩ [(1, [⟨1, 2, 3, 4⟩])] ⟨1, 2, 3, 4⟩ (by decide)
    7 8 10 4 20 9 10 8 20 6 (by decide) (by decide)

/-- C5: evaluation at the failing input.  The insertion walk of
`link_entry` splices a record that beats a non-head node in AFTER that
node (experience.cpp:140-144), contradicting the code's own comment at
experience.cpp:129 ("insert sorted based on depth/value") and the
claimed invariant.  Linking the pairwise-distinct records
(key 1, move 1, depth 10), (key 1, move 2, depth 5) and
(key 1, move 3, depth 7) yields the chain [depth 10, depth 5, depth 7],
whose adjacent pair (depth 5, depth 7) violates `compare(a, b) ≥ 0`; the
in-place higher-depth merge of a duplicate (experience.cpp:122-127)
leaves chains unsorted as well. -/
theorem claim5_insert_after_breaks_sort :
    chainAt (linkList [⟨1, 1, 0, 10⟩, ⟨1, 2, 0, 5⟩, ⟨1, 3, 0, 7⟩] []) 1 =
      [⟨1, 1, 0, 10⟩, ⟨1, 2, 0, 5⟩, ⟨1, 3, 0, 7⟩] ∧
    ¬ List.Chain' compGE (chainAt (linkList [⟨1, 1, 0, 10⟩, ⟨1, 2, 0, 5⟩, ⟨1, 3, 0, 7⟩] []) 1) := by
  have hc : chainAt (linkList [⟨1, 1, 0, 10⟩, ⟨1, 2, 0, 5⟩, ⟨1, 3, 0, 7⟩] []) 1 =
      [⟨1, 1, 0, 10⟩, ⟨1, 2, 0, 5⟩, ⟨1, 3, 0, 7⟩] := by decide
  refine ⟨hc, ?_⟩
  rw [hc, List.chain'_cons]
  rintro ⟨-, h2⟩
  rw [List.chain'_cons] at h2
  have h3 := h2.1
  revert h3
  decide

/-- A file system holding no files and injecting no failures (a fresh
directory for a fresh target file). -/
def freshFS : FS :=
  ⟨[], [], [], [], []⟩

theorem lookupFile_eq_of_content {fs : FS} {fn : FName} {c : List Nat}
    (h : fs.content fn = c) (hne : c ≠ []) : fs.lookupFile fn = some c := by
  unfold FS.content at h
  cases hl : fs.lookupFile fn with
  | none =>
    rw [hl] at h
    simp at h
    exact (hne h).elim
  | some d =>
    rw [hl] at h
    simp at h
    rw [h]

/-- C3: saving a populated store in full mode to a fresh file and
reloading that file into a fresh store succeeds and yields, for every
fingerprint, a chain containing exactly the records of the store whose
depth meets the minimum threshold, with no duplicate moves in any chain.
The store is populated (its records carry pairwise-distinct
(fingerprint, move) pairs, as `link_entry` guarantees for loaded data),
its records are within the on-disk field widths, and the store is small
enough for the byte count to fit `size_t`. -/
theorem claim3_full_save_roundtrip (store : Store) (fn : FName)
    (hpairs : ((storeRecords store).map entryPair).Nodup)
    (hbounds : ∀ e ∈ storeRecords store, EntryWF e)
    (hsize : signatureLength + entrySize * (storeRecords store).length < 2 ^ 64) :
    (loadFile ((save_impl store fn true freshFS).1.lookupFile fn) []).2 = true ∧
    (∀ k e, e ∈ chainAt (loadFile ((save_impl store fn true freshFS).1.lookupFile fn) []).1 k ↔
      (e ∈ storeRecords store ∧ e.key = k ∧ MIN_EXP_DEPTH ≤ e.depth)) ∧
    (∀ k, ((chainAt (loadFile ((save_impl store fn true freshFS).1.lookupFile fn) []).1 k).map
      ExpEntry.move).Nodup) := by
  have ho : fn ∉ freshFS.openFails := by simp [freshFS]
  have hw : fn ∉ freshFS.writeFails := by simp [freshFS]
  have hmiss : freshFS.lookupFile fn = none := rfl
  obtain ⟨hok, hstore, hcontent, hsame⟩ := save_impl_clean store fn true freshFS ho hw hmiss
  have hrecords : (if true = true then idxEntries store.index else []) ++
      store.pendingPV ++ store.pendingMPV = storeRecords store := by
    simp [storeRecords]
  rw [hrecords] at hcontent
  set rsF := minDepthFilter (storeRecords store) with hrsF
  have hne : signatureBytes ++ joinEnc rsF ≠ [] := by simp [signatureBytes]
  have hlook : (save_impl store fn true freshFS).1.lookupFile fn =
      some (signatureBytes ++ joinEnc rsF) := lookupFile_eq_of_content hcontent hne
  have hsub : rsF.Sublist (storeRecords store) := List.filter_sublist _
  have hwfF : ∀ e ∈ rsF, EntryWF e := fun e he => hbounds e (hsub.mem he)
  have hsizeF : signatureLength + entrySize * rsF.length < 2 ^ 64 := by
    have := hsub.length_le
    simp only [signatureLength, entrySize] at hsize ⊢
    omega
  have hload := loadFile_decodes rsF [] hwfF hsizeF
  rw [hlook, hload]
  have hndF : (rsF.map entryPair).Nodup := (hpairs.sublist (hsub.map entryPair))
  have hwfI : ChainsWF ([] : Index) := by intro k2; simp [chainAt]
  have hfrI : FreshFor rsF ([] : Index) := by
    intro e _ x hx
    simp [chainAt] at hx
  obtain ⟨hwfFinal, hperm⟩ := linkList_props rsF [] hwfI hndF hfrI
  dsimp only
  refine ⟨rfl, ?_, fun k => (hwfFinal k).2⟩
  intro k e
  have hp := (hperm k).mem_iff (a := e)
  have hempty : chainAt ([] : Index) k = [] := rfl
  rw [hempty, List.append_nil] at hp
  rw [hp, List.mem_filter]
  rw [hrsF]
  unfold minDepthFilter
  rw [List.mem_filter]
  constructor
  · rintro ⟨⟨hmem, hdep⟩, hkey⟩
    exact ⟨hmem, by simpa using hkey, by simpa using hdep⟩
  · rintro ⟨hmem, hkey, hdep⟩
    exact ⟨⟨hmem, by simpa using hdep⟩, by simpa using hkey⟩

/-- Witness for C3 at a concrete two-record store (one index node, one
pending PV record; one record below the depth threshold is dropped). -/
theorem claim3_witness :
    ((storeRecords ⟨[(1, [⟨1, 7, 3, 9⟩, ⟨1, 8, 2, 2⟩])], [⟨2, 5, -4, 6⟩], []⟩).map
      entryPair).Nodup ∧
    (∀ k e, e ∈ chainAt (loadFile ((save_impl ⟨[(1, [⟨1, 7, 3, 9⟩, ⟨1, 8, 2, 2⟩])],
        [⟨2, 5, -4, 6⟩], []⟩ [102] true freshFS).1.lookupFile [102]) []).1 k ↔
      (e ∈ storeRecords ⟨[(1, [⟨1, 7, 3, 9⟩, ⟨1, 8, 2, 2⟩])], [⟨2, 5, -4, 6⟩], []⟩ ∧
        e.key = k ∧ MIN_EXP_DEPTH ≤ e.depth)) :=
  ⟨by decide,
    (claim3_full_save_roundtrip ⟨[(1, [⟨1, 7, 3, 9⟩, ⟨1, 8, 2, 2⟩])], [⟨2, 5, -4, 6⟩], []⟩
      [102] (by decide) (by decide) (by decide)).2.1⟩

theorem alookup_aremove_other {κ ν : Type} [DecidableEq κ] (l : List (κ × ν)) (k k2 : κ)
    (h : k2 ≠ k) : alookup (aremove l k) k2 = alookup l k2 := by
  induction l with
  | nil => rfl
  | cons p rest ih =>
    unfold aremove
    by_cases hp : p.1 = k
    · rw [if_pos hp]
      rw [alookup_cons, if_neg (by rw [hp]; exact fun he => h he.symm)]
    · rw [if_neg hp]
      rw [alookup_cons, alookup_cons, ih]

theorem aremove_keys_sublist {κ ν : Type} [DecidableEq κ] (l : List (κ × ν)) (k : κ) :
    ((aremove l k).map Prod.fst).Sublist (l.map Prod.fst) := by
  induction l with
  | nil => simp [aremove]
  | cons p rest ih =>
    unfold aremove
    split
    · simp
    · simpa using ih.cons₂ p.1

theorem alookup_isSome_mem_keys {κ ν : Type} [DecidableEq κ] (l : List (κ × ν)) (k : κ) {v : ν}
    (h : alookup l k = some v) : k ∈ l.map Prod.fst := by
  induction l with
  | nil => simp [alookup] at h
  | cons q rest ih =>
    rw [alookup_cons] at h
    by_cases hq : q.1 = k
    · rw [List.map_cons, ← hq]
      exact List.mem_cons_self q.1 _
    · rw [if_neg hq] at h
      exact List.mem_cons_of_mem _ (ih h)

theorem alookup_aremove_self {κ ν : Type} [DecidableEq κ] (l : List (κ × ν)) (k : κ)
    (hnd : (l.map Prod.fst).Nodup) : alookup (aremove l k) k = none := by
  induction l with
  | nil => rfl
  | cons p rest ih =>
    rw [List.map_cons, List.nodup_cons] at hnd
    unfold aremove
    by_cases hp : p.1 = k
    · rw [if_pos hp]
      cases hl : alookup rest k with
      | none => rfl
      | some v =>
        exact absurd (hp ▸ alookup_isSome_mem_keys rest k hl) hnd.1
    · rw [if_neg hp, alookup_cons, if_neg hp]
      exact ih hnd.2

/-- The `.bak` sibling of a path is a different path. -/
theorem bak_ne (fn : FName) : fn ++ bakSuffix ≠ fn := by
  intro h
  have := congrArg List.length h
  simp [bakSuffix] at this

theorem bak_ne_nil (fn : FName) : fn ++ bakSuffix ≠ [] := by
  intro h
  have := congrArg List.length h
  simp [bakSuffix] at this

theorem fsRemove_ok (fs : FS) (n : FName) (h1 : n ∉ fs.removeFails)
    (h2 : fs.fileExists n = true) :
    fsRemove fs n = ({ fs with files := aremove fs.files n }, true) := by
  unfold fsRemove
  rw [if_neg (by simp [h1, h2])]

theorem fsRemove_fail (fs : FS) (n : FName)
    (h : n ∈ fs.removeFails ∨ fs.fileExists n = false) :
    fsRemove fs n = (fs, false) := by
  unfold fsRemove
  rw [if_pos h]

theorem fsRename_ok (fs : FS) (src dst : FName) (h1 : src ∉ fs.renameFails)
    (h2 : fs.fileExists src = true) :
    fsRename fs src dst =
      (({ fs with files := aremove fs.files src } : FS).setFile dst (fs.content src), true) := by
  unfold fsRename
  rw [if_neg (by simp [h1, h2])]

theorem fsRename_fail (fs : FS) (src dst : FName)
    (h : src ∈ fs.renameFails ∨ fs.fileExists src = false) :
    fsRename fs src dst = (fs, false) := by
  unfold fsRename
  rw [if_pos h]

/-- When the primitives succeed, step 1 of `save` really moves the
target to its `.bak` sibling: afterwards the backup name is set, the
backup holds the old target bytes and the target name is gone. -/
theorem backupStep_ok {fs : FS} {fn : FName} (hkeys : (fs.files.map Prod.fst).Nodup)
    (hex : fs.fileExists fn = true)
    (hrm : fn ++ bakSuffix ∉ fs.removeFails)
    (hrn : fn ∉ fs.renameFails) :
    (backupStep fs fn true).2 = fn ++ bakSuffix ∧
    (backupStep fs fn true).1.lookupFile (fn ++ bakSuffix) = some (fs.content fn) ∧
    (backupStep fs fn true).1.lookupFile fn = none ∧
    (backupStep fs fn true).1.openFails = fs.openFails ∧
    (backupStep fs fn true).1.writeFails = fs.writeFails ∧
    (backupStep fs fn true).1.renameFails = fs.renameFails := by
  have hcond : (true = true ∧ fs.fileExists fn = true) := ⟨rfl, hex⟩
  have hne : fn ≠ fn ++ bakSuffix := fun h => bak_ne fn h.symm
  -- the file system after the remove step, in both cases
  have hrm_cases : ∃ fsA : FS, backupRemoveStep fs (fn ++ bakSuffix) = (fsA, fn ++ bakSuffix) ∧
      fsA.lookupFile fn = fs.lookupFile fn ∧ fsA.content fn = fs.content fn ∧
      (fsA.files.map Prod.fst).Nodup ∧
      fsA.openFails = fs.openFails ∧ fsA.writeFails = fs.writeFails ∧
      fsA.renameFails = fs.renameFails := by
    by_cases hb : fs.fileExists (fn ++ bakSuffix) = true
    · refine ⟨{ fs with files := aremove fs.files (fn ++ bakSuffix) }, ?_, ?_, ?_, ?_, rfl, rfl,
        rfl⟩
      · unfold backupRemoveStep
        rw [if_pos hb, fsRemove_ok _ _ hrm hb]
        dsimp only
        rw [if_pos rfl]
      · unfold FS.lookupFile
        exact alookup_aremove_other fs.files (fn ++ bakSuffix) fn hne
      · unfold FS.content FS.lookupFile
        rw [alookup_aremove_other fs.files (fn ++ bakSuffix) fn hne]
      · exact hkeys.sublist (aremove_keys_sublist fs.files (fn ++ bakSuffix))
    · refine ⟨fs, ?_, rfl, rfl, hkeys, rfl, rfl, rfl⟩
      unfold backupRemoveStep
      rw [if_neg hb]
  obtain ⟨fsA, hstepA, hlookA, hcontA, hkeysA, hofA, hwfA, hrfA⟩ := hrm_cases
  have hexA : fsA.fileExists fn = true := by
    unfold FS.fileExists
    rw [hlookA]
    exact hex
  have hrnA : fn ∉ fsA.renameFails := by rw [hrfA]; exact hrn
  have hren := fsRename_ok fsA fn (fn ++ bakSuffix) hrnA hexA
  have hstep : backupStep fs fn true =
      (({ fsA with files := aremove fsA.files fn } : FS).setFile (fn ++ bakSuffix)
        (fsA.content fn), fn ++ bakSuffix) := by
    unfold backupStep
    rw [if_pos hcond, hstepA]
    dsimp only
    unfold backupRenameStep
    rw [if_pos (bak_ne_nil fn), hren]
    dsimp only
    rw [if_pos rfl]
  have h2 : (backupStep fs fn true).1.lookupFile (fn ++ bakSuffix) = some (fs.content fn) := by
    rw [hstep]
    unfold FS.setFile FS.lookupFile
    dsimp only
    rw [alookup_aupdate_self, hcontA]
  have h3 : (backupStep fs fn true).1.lookupFile fn = none := by
    rw [hstep]
    unfold FS.setFile FS.lookupFile
    dsimp only
    rw [alookup_aupdate_other hne, alookup_aremove_self fsA.files fn hkeysA]
  refine ⟨by rw [hstep], h2, h3, ?_, ?_, ?_⟩
  · rw [hstep]
    exact hofA
  · rw [hstep]
    exact hwfA
  · rw [hstep]
    exact hrfA

/-- C2: for a full-mode save whose target exists (and whose backup
primitives are not failure-injected), the target is first renamed to the
`.bak` sibling (replacing a prior backup; afterwards the backup carries
the old bytes and the target name is gone), `_save` then runs on that
file system; if it fails, the original filename is restored with its
pre-save byte-for-byte content, and if it succeeds the backup is left in
place, still holding the pre-save content. -/
theorem claim2_backup_and_restore (store : Store) (fn : FName) (fs : FS) (c : List Nat)
    (hkeys : (fs.files.map Prod.fst).Nodup)
    (hex : fs.lookupFile fn = some c)
    (hrm : fn ++ bakSuffix ∉ fs.removeFails)
    (hrn : fn ∉ fs.renameFails)
    (hrn2 : fn ++ bakSuffix ∉ fs.renameFails)
    (hgo : saveGuard store true = false) :
    (backupStep fs fn true).2 = fn ++ bakSuffix ∧
    (backupStep fs fn true).1.lookupFile (fn ++ bakSuffix) = some c ∧
    (backupStep fs fn true).1.lookupFile fn = none ∧
    ((save_impl store fn true (backupStep fs fn true).1).2.2 = false →
      (save store fn true fs).1.lookupFile fn = some c) ∧
    ((save_impl store fn true (backupStep fs fn true).1).2.2 = true →
      (save store fn true fs).1.lookupFile (fn ++ bakSuffix) = some c) := by
  have hexB : fs.fileExists fn = true := by
    unfold FS.fileExists
    rw [hex]
    rfl
  have hcont : fs.content fn = c := by
    unfold FS.content
    rw [hex]
    rfl
  obtain ⟨hb1, hb2, hb3, hbo, hbw, hbr⟩ := backupStep_ok hkeys hexB hrm hrn
  rw [hcont] at hb2
  obtain ⟨w, hwapp, hsameR⟩ := save_impl_append store fn true (backupStep fs fn true).1
  have hrlook : (save_impl store fn true (backupStep fs fn true).1).1.lookupFile
      (fn ++ bakSuffix) = some c := by
    rw [hsameR.2.2.2.2 (fn ++ bakSuffix) (bak_ne fn), hb2]
  have hrren : fn ++ bakSuffix ∉
      (save_impl store fn true (backupStep fs fn true).1).1.renameFails := by
    rw [hsameR.2.2.2.1, hbr]
    exact hrn2
  have hrexB : (save_impl store fn true (backupStep fs fn true).1).1.fileExists
      (fn ++ bakSuffix) = true := by
    unfold FS.fileExists
    rw [hrlook]
    rfl
  have hrcont : (save_impl store fn true (backupStep fs fn true).1).1.content
      (fn ++ bakSuffix) = c := by
    unfold FS.content
    rw [hrlook]
    rfl
  refine ⟨hb1, hb2, hb3, ?_, ?_⟩
  · intro hfail
    simp only [save]
    rw [if_neg (by simp [hgo])]
    rw [hb1, hfail]
    rw [if_neg (by simp)]
    rw [if_pos (bak_ne_nil fn)]
    dsimp only
    rw [fsRename_ok _ _ fn hrren hrexB]
    dsimp only
    unfold FS.setFile FS.lookupFile
    dsimp only
    rw [alookup_aupdate_self, hrcont]
  · intro hsucc
    simp only [save]
    rw [if_neg (by simp [hgo])]
    rw [hb1, hsucc]
    rw [if_pos rfl]
    exact hrlook

/-- Witness for C2: a concrete one-file file system with no injected
failures and a store with one pending record. -/
theorem claim2_witness :
    ((⟨[([102], [9, 9])], [], [], [], []⟩ : FS).files.map Prod.fst).Nodup ∧
    (backupStep ⟨[([102], [9, 9])], [], [], [], []⟩ [102] true).2 = [102] ++ bakSuffix ∧
    (backupStep ⟨[([102], [9, 9])], [], [], [], []⟩ [102] true).1.lookupFile
      ([102] ++ bakSuffix) = some [9, 9] ∧
    (backupStep ⟨[([102], [9, 9])], [], [], [], []⟩ [102] true).1.lookupFile [102] = none ∧
    ((save_impl ⟨[], [⟨2, 5, -4, 6⟩], []⟩ [102] true
        (backupStep ⟨[([102], [9, 9])], [], [], [], []⟩ [102] true).1).2.2 = false →
      (save ⟨[], [⟨2, 5, -4, 6⟩], []⟩ [102] true
        ⟨[([102], [9, 9])], [], [], [], []⟩).1.lookupFile [102] = some [9, 9]) ∧
    ((save_impl ⟨[], [⟨2, 5, -4, 6⟩], []⟩ [102] true
        (backupStep ⟨[([102], [9, 9])], [], [], [], []⟩ [102] true).1).2.2 = true →
      (save ⟨[], [⟨2, 5, -4, 6⟩], []⟩ [102] true
        ⟨[([102], [9, 9])], [], [], [], []⟩).1.lookupFile ([102] ++ bakSuffix) =
        some [9, 9]) := by
  refine ⟨by decide, ?_⟩
  exact claim2_backup_and_restore ⟨[], [⟨2, 5, -4, 6⟩], []⟩ [102]
    ⟨[([102], [9, 9])], [], [], [], []⟩ [9, 9] (by decide) (by decide) (by decide) (by decide)
    (by decide) (by decide)

/-- C10: the output of `_save` is opened in append mode, so a full save
never truncates the target: whenever creating the backup fails (the
prior `.bak` cannot be deleted, or the rename of the target fails), the
backup name is cleared, the target still holds its old bytes when
`_save` starts, the whole save result is exactly the `_save` result (no
restore is attempted even on failure), and the final target content is
the old content with bytes appended after it. -/
theorem claim10_append_mode_no_truncate (store : Store) (fn : FName) (fs : FS) (c : List Nat)
    (hex : fs.lookupFile fn = some c)
    (hgo : saveGuard store true = false)
    (hfail : (fs.fileExists (fn ++ bakSuffix) = true ∧ fn ++ bakSuffix ∈ fs.removeFails) ∨
      (fn ∈ fs.renameFails ∧
        (fs.fileExists (fn ++ bakSuffix) = true → fn ++ bakSuffix ∉ fs.removeFails))) :
    (backupStep fs fn true).2 = [] ∧
    (backupStep fs fn true).1.lookupFile fn = some c ∧
    save store fn true fs =
      ((save_impl store fn true (backupStep fs fn true).1).1,
        (save_impl store fn true (backupStep fs fn true).1).2.1) ∧
    (∃ w, (save_impl store fn true (backupStep fs fn true).1).1.content fn = c ++ w) := by
  have hexB : fs.fileExists fn = true := by
    unfold FS.fileExists
    rw [hex]
    rfl
  have hcond : (true = true ∧ fs.fileExists fn = true) := ⟨rfl, hexB⟩
  have hstep : ∃ fs1 : FS, backupStep fs fn true = (fs1, []) ∧ fs1.lookupFile fn = some c := by
    rcases hfail with ⟨hbex, hbrm⟩ | ⟨hren, himp⟩
    · refine ⟨fs, ?_, hex⟩
      unfold backupStep
      rw [if_pos hcond]
      have hrm : backupRemoveStep fs (fn ++ bakSuffix) = (fs, []) := by
        unfold backupRemoveStep
        rw [if_pos hbex, fsRemove_fail _ _ (Or.inl hbrm)]
        dsimp only
        rw [if_neg (by simp)]
      rw [hrm]
      unfold backupRenameStep
      rw [if_neg (by simp)]
    · by_cases hbex : fs.fileExists (fn ++ bakSuffix) = true
      · refine ⟨{ fs with files := aremove fs.files (fn ++ bakSuffix) }, ?_, ?_⟩
        · unfold backupStep
          rw [if_pos hcond]
          have hrm : backupRemoveStep fs (fn ++ bakSuffix) =
              ({ fs with files := aremove fs.files (fn ++ bakSuffix) }, fn ++ bakSuffix) := by
            unfold backupRemoveStep
            rw [if_pos hbex, fsRemove_ok _ _ (himp hbex) hbex]
            dsimp only
            rw [if_pos rfl]
          rw [hrm]
          unfold backupRenameStep
          dsimp only
          rw [if_pos (bak_ne_nil fn)]
          rw [fsRename_fail { fs with files := aremove fs.files (fn ++ bakSuffix) } fn
            (fn ++ bakSuffix) (Or.inl hren)]
          dsimp only
          rw [if_neg (by simp)]
        · unfold FS.lookupFile
          rw [alookup_aremove_other fs.files (fn ++ bakSuffix) fn
            (fun h => bak_ne fn h.symm)]
          exact hex
      · refine ⟨fs, ?_, hex⟩
        unfold backupStep
        rw [if_pos hcond]
        have hrm : backupRemoveStep fs (fn ++ bakSuffix) = (fs, fn ++ bakSuffix) := by
          unfold backupRemoveStep
          rw [if_neg hbex]
        rw [hrm]
        unfold backupRenameStep
        dsimp only
        rw [if_pos (bak_ne_nil fn)]
        rw [fsRename_fail fs fn (fn ++ bakSuffix) (Or.inl hren)]
        dsimp only
        rw [if_neg (by simp)]
  obtain ⟨fs1, hb, hlook1⟩ := hstep
  have hb2 : (backupStep fs fn true).2 = [] := by rw [hb]
  have hb1 : (backupStep fs fn true).1 = fs1 := by rw [hb]
  refine ⟨hb2, by rw [hb1]; exact hlook1, ?_, ?_⟩
  · simp only [save]
    rw [if_neg (by simp [hgo]), hb2]
    by_cases hr : (save_impl store fn true (backupStep fs fn true).1).2.2 = true
    · rw [if_pos hr]
    · rw [if_neg hr, if_neg (by simp)]
  · obtain ⟨w, hwapp, _⟩ := save_impl_append store fn true (backupStep fs fn true).1
    refine ⟨w, ?_⟩
    rw [hwapp, hb1]
    have : fs1.content fn = c := by
      unfold FS.content
      rw [hlook1]
      rfl
    rw [this]

/-- Witness for C10: concrete file system where the prior backup exists
but cannot be deleted. -/
theorem claim10_witness :
    (⟨[([102], [9, 9]), ([102, 46, 98, 97, 107], [7])], [], [], [[102, 46, 98, 97, 107]],
        []⟩ : FS).lookupFile [102] = some [9, 9] ∧
    (backupStep ⟨[([102], [9, 9]), ([102, 46, 98, 97, 107], [7])], [], [],
        [[102, 46, 98, 97, 107]], []⟩ [102] true).2 = [] ∧
    (∃ w, (save_impl ⟨[], [⟨2, 5, -4, 6⟩], []⟩ [102] true
      (backupStep ⟨[([102], [9, 9]), ([102, 46, 98, 97, 107], [7])], [], [],
        [[102, 46, 98, 97, 107]], []⟩ [102] true).1).1.content [102] = [9, 9] ++ w) := by
  have h := claim10_append_mode_no_truncate ⟨[], [⟨2, 5, -4, 6⟩], []⟩ [102]
    ⟨[([102], [9, 9]), ([102, 46, 98, 97, 107], [7])], [], [], [[102, 46, 98, 97, 107]], []⟩
    [9, 9] (by decide) (by decide) (Or.inl ⟨by decide, by decide⟩)
  exact ⟨by decide, h.1, h.2.2.2⟩

/-- C6 fails as stated: with a nonempty pending buffer, an empty index
and full=true, the claimed no-op condition (b) holds, yet `save`
proceeds and writes the pending record to the file. -/
theorem claim6_counterexample :
    (⟨[], [⟨2, 5, -4, 6⟩], []⟩ : Store).index = [] ∧
    (save ⟨[], [⟨2, 5, -4, 6⟩], []⟩ [102] true freshFS).1.lookupFile [102] =
      some (signatureBytes ++ encodeEntry ⟨2, 5, -4, 6⟩) ∧
    (save ⟨[], [⟨2, 5, -4, 6⟩], []⟩ [102] true freshFS).1 ≠ freshFS := by
  refine ⟨rfl, by decide, by decide⟩

/-- C6 (amended): `save` takes its no-file-operation early return
exactly when both pending buffers are empty and (full=false or the
in-memory index is empty); when the guard holds nothing at all happens
(the file system and the store are returned unchanged). -/
theorem claim6_save_noop_guard (store : Store) (fn : FName) (saveAll : Bool) (fs : FS) :
    (saveGuard store saveAll = true ↔
      (store.pendingPV = [] ∧ store.pendingMPV = [] ∧
        (saveAll = false ∨ store.index = []))) ∧
    (saveGuard store saveAll = true → save store fn saveAll fs = (fs, store)) := by
  constructor
  · unfold saveGuard hasNewExp
    cases saveAll <;> simp [List.isEmpty_iff, and_assoc]
  · intro h
    unfold save
    rw [if_pos h]

/-- Witness for C6 (amended) at a concrete store with an empty pending
buffer and a non-full save. -/
theorem claim6_witness :
    saveGuard ⟨[(1, [⟨1, 7, 3, 9⟩])], [], []⟩ false = true ∧
    save ⟨[(1, [⟨1, 7, 3, 9⟩])], [], []⟩ [102] false freshFS =
      (freshFS, ⟨[(1, [⟨1, 7, 3, 9⟩])], [], []⟩) :=
  ⟨by decide, (claim6_save_noop_guard ⟨[(1, [⟨1, 7, 3, 9⟩])], [], []⟩ [102] false
    freshFS).2 (by decide)⟩

/-- C9: `_save` ignores the success of the final forced flush
(experience.cpp:399 discards the return of `write_entry(nullptr, true)`).
With an incremental save whose pending records fit below the write
buffer size, writes to the target failing, and the target nonempty (so
the signature write is skipped), the save reports success, clears both
pending buffers, and leaves the file system unchanged: records are
discarded without any failure being reported or a backup restored. -/
theorem claim9_final_flush_ignored (store : Store) (fn : FName) (fs : FS) (c : List Nat)
    (hw : fn ∈ fs.writeFails)
    (ho : fn ∉ fs.openFails)
    (hex : fs.lookupFile fn = some c)
    (hc : c ≠ [])
    (hnew : hasNewExp store = true)
    (hsmall : entrySize * (store.pendingPV.length + store.pendingMPV.length) <
      WriteBufferSize) :
    save_impl store fn false fs = (fs, { store with pendingPV := [], pendingMPV := [] }, true) ∧
    save store fn false fs = (fs, { store with pendingPV := [], pendingMPV := [] }) := by
  have hexB : fs.fileExists fn = true := by
    unfold FS.fileExists
    rw [hex]
    rfl
  have hcont : fs.content fn = c := by
    unfold FS.content
    rw [hex]
    rfl
  have hopen : openStage fs fn = fs := by
    unfold openStage
    rw [if_pos hexB]
  have hsig : sigStage (openStage fs fn) fn = (fs, true) := by
    rw [hopen]
    unfold sigStage
    rw [if_neg (by rw [hcont]; simpa using hc)]
  have hr1 : saveEntries fn (if false = true then idxEntries store.index else []) (fs, true).1 []
      = ((fs, []), true) := by
    rw [if_neg (by simp)]
    rfl
  have hr2 : saveEntries fn store.pendingPV fs [] =
      ((fs, [] ++ joinEnc (minDepthFilter store.pendingPV)), true) := by
    apply saveEntries_noflush
    simp only [List.length_nil, entrySize] at hsmall ⊢
    omega
  have hbuflen : ([] ++ joinEnc (minDepthFilter store.pendingPV)).length ≤
      entrySize * store.pendingPV.length := by
    rw [List.nil_append, joinEnc_length]
    have := List.length_filter_le (fun e => decide (MIN_EXP_DEPTH ≤ e.depth)) store.pendingPV
    simp only [entrySize, minDepthFilter]
    omega
  have hr3 : saveEntries fn store.pendingMPV fs ([] ++ joinEnc (minDepthFilter store.pendingPV))
      = ((fs, ([] ++ joinEnc (minDepthFilter store.pendingPV)) ++
          joinEnc (minDepthFilter store.pendingMPV)), true) := by
    apply saveEntries_noflush
    simp only [entrySize] at hsmall hbuflen ⊢
    omega
  have hrF : (write_entry fn fs (([] ++ joinEnc (minDepthFilter store.pendingPV)) ++
      joinEnc (minDepthFilter store.pendingMPV)) none true).1.1 = fs := by
    simp only [write_entry]
    rw [if_pos (Or.inl trivial)]
    unfold outWrite
    rw [if_pos hw]
  have himpl : save_impl store fn false fs =
      (fs, { store with pendingPV := [], pendingMPV := [] }, true) := by
    simp only [save_impl]
    rw [if_neg ho, hsig]
    rw [if_neg (by simp), hr1]
    rw [if_neg (by simp)]
    dsimp only
    rw [hr2]
    rw [if_neg (by simp)]
    dsimp only
    rw [hr3]
    rw [if_neg (by simp)]
    dsimp only
    rw [hrF]
  refine ⟨himpl, ?_⟩
  simp only [save]
  rw [if_neg (by simp [saveGuard, hnew])]
  have hbk : backupStep fs fn false = (fs, []) := by
    unfold backupStep
    rw [if_neg (by simp)]
  rw [hbk]
  dsimp only
  rw [himpl]
  dsimp only
  rw [if_pos rfl]

/-- Witness for C9: one pending record, a nonempty target file whose
writes fail; the record disappears while success is reported. -/
theorem claim9_witness :
    hasNewExp ⟨[], [⟨2, 5, -4, 6⟩], []⟩ = true ∧
    save_impl ⟨[], [⟨2, 5, -4, 6⟩], []⟩ [102] false
        ⟨[([102], [9, 9])], [], [[102]], [], []⟩ =
      (⟨[([102], [9, 9])], [], [[102]], [], []⟩, ⟨[], [], []⟩, true) ∧
    save ⟨[], [⟨2, 5, -4, 6⟩], []⟩ [102] false ⟨[([102], [9, 9])], [], [[102]], [], []⟩ =
      (⟨[([102], [9, 9])], [], [[102]], [], []⟩, ⟨[], [], []⟩) := by
  have h := claim9_final_flush_ignored ⟨[], [⟨2, 5, -4, 6⟩], []⟩ [102]
    ⟨[([102], [9, 9])], [], [[102]], [], []⟩ [9, 9] (by decide) (by decide) (by decide)
    (by decide) (by decide) (by decide)
  exact ⟨by decide, h.1, h.2⟩

/-- C7: evaluation at the failing input.  With maxPly = 1, the token at
ply 2 (score 20, depth 8, both inside their limits) is still staged by
the code (`stagedRecords`, which never consults maxPly —
experience.cpp:750 parses it but no later line reads it), while the
claimed behaviour (`stagedRecordsClaim`, all three filters) drops it;
both stage the passing ply-1 token keyed by the pre-move
fingerprint. -/
theorem claim7_maxPly_not_enforced :
    stagedRecords 4 100 200 (fun i => 100 + i)
      [⟨11, some 50, some 7⟩, ⟨13, some 20, some 8⟩] =
      [⟨100, 11, 50, 7⟩, ⟨101, 13, 20, 8⟩] ∧
    stagedRecordsClaim 1 4 100 200 (fun i => 100 + i)
      [⟨11, some 50, some 7⟩, ⟨13, some 20, some 8⟩] =
      [⟨100, 11, 50, 7⟩] ∧
    stagedRecords 4 100 200 (fun i => 100 + i)
      [⟨11, some 50, some 7⟩, ⟨13, some 20, some 8⟩] ≠
      stagedRecordsClaim 1 4 100 200 (fun i => 100 + i)
        [⟨11, some 50, some 7⟩, ⟨13, some 20, some 8⟩] :=
  ⟨by decide, by decide, by decide⟩

/-! ## Sortedness and stability of the estimator output (C8) -/

theorem ltEstVal_irrefl (v : Option Int) : ltEstVal v v = false := by
  cases v <;> simp [ltEstVal]

theorem ltEstVal_asym {a b : Option Int} (h : ltEstVal a b = true) : ltEstVal b a = false := by
  cases a <;> cases b <;> simp_all [ltEstVal]
  omega

theorem ltEstVal_trans {a b c : Option Int} (h1 : ltEstVal a b = true)
    (h2 : ltEstVal b c = true) : ltEstVal a c = true := by
  cases a <;> cases b <;> cases c <;> simp_all [ltEstVal]
  omega

theorem sInsert_perm {α : Type} (lt : α → α → Bool) (x : α) (l : List α) :
    (sInsert lt x l).Perm (x :: l) := by
  induction l with
  | nil => simp [sInsert]
  | cons y ys ih =>
    unfold sInsert
    split
    · exact List.Perm.refl _
    · exact (List.Perm.cons y ih).trans (List.Perm.swap x y ys)

theorem sInsert_mem {α : Type} {lt : α → α → Bool} {x z : α} {l : List α} :
    z ∈ sInsert lt x l ↔ z = x ∨ z ∈ l := by
  rw [(sInsert_perm lt x l).mem_iff, List.mem_cons]

theorem sInsert_pairwise {x : ExpEntry × Option Int} {l : List (ExpEntry × Option Int)}
    (h : List.Pairwise (fun a b => ltEst b a = false) l) :
    List.Pairwise (fun a b => ltEst b a = false) (sInsert ltEst x l) := by
  induction l with
  | nil => simp [sInsert]
  | cons y ys ih =>
    rcases List.pairwise_cons.1 h with ⟨hy, hys⟩
    unfold sInsert
    split
    · rename_i hlt
      refine List.pairwise_cons.2 ⟨?_, h⟩
      intro z hz
      rcases List.mem_cons.1 hz with rfl | hz2
      · exact ltEstVal_asym hlt
      · cases hzx : ltEst z x with
        | false => rfl
        | true =>
          have : ltEst z y = true := ltEstVal_trans hzx hlt
          rw [hy z hz2] at this
          exact absurd this (by simp)
    · rename_i hlt
      refine List.pairwise_cons.2 ⟨?_, ih hys⟩
      intro z hz
      rcases sInsert_mem.1 hz with rfl | hz2
      · exact Bool.of_not_eq_true hlt
      · exact hy z hz2

theorem stableSortBy_perm_aux {α : Type} (lt : α → α → Bool) (l : List α) :
    ∀ acc : List α, (l.foldl (fun a x => sInsert lt x a) acc).Perm (acc ++ l) := by
  induction l with
  | nil => intro acc; simp
  | cons x xs ih =>
    intro acc
    rw [List.foldl_cons]
    refine (ih (sInsert lt x acc)).trans ?_
    refine (List.Perm.append_right xs (sInsert_perm lt x acc)).trans ?_
    exact (@List.perm_middle _ x acc xs).symm

theorem stableSortBy_perm {α : Type} (lt : α → α → Bool) (l : List α) :
    (stableSortBy lt l).Perm l := by
  have := stableSortBy_perm_aux lt l []
  simpa [stableSortBy] using this

theorem stableSortBy_pairwise_aux (l : List (ExpEntry × Option Int)) :
    ∀ acc : List (ExpEntry × Option Int),
      List.Pairwise (fun a b => ltEst b a = false) acc →
      List.Pairwise (fun a b => ltEst b a = false)
        (l.foldl (fun a x => sInsert ltEst x a) acc) := by
  induction l with
  | nil => intro acc h; exact h
  | cons x xs ih =>
    intro acc h
    rw [List.foldl_cons]
    exact ih (sInsert ltEst x acc) (sInsert_pairwise h)

theorem sInsert_filter_other {x : ExpEntry × Option Int} {l : List (ExpEntry × Option Int)}
    {v : Option Int} (hx : ¬ (x.2 = v)) :
    (sInsert ltEst x l).filter (fun p => decide (p.2 = v)) =
      l.filter (fun p => decide (p.2 = v)) := by
  induction l with
  | nil => simp [sInsert, hx]
  | cons y ys ih =>
    unfold sInsert
    split
    · rw [List.filter_cons, if_neg (by simp [hx])]
    · rw [List.filter_cons, List.filter_cons]
      by_cases hy : y.2 = v
      · rw [if_pos (by simp [hy]), if_pos (by simp [hy]), ih]
      · rw [if_neg (by simp [hy]), if_neg (by simp [hy]), ih]

theorem sInsert_filter_self {x : ExpEntry × Option Int} {l : List (ExpEntry × Option Int)}
    {v : Option Int} (hx : x.2 = v)
    (hs : List.Pairwise (fun a b => ltEst b a = false) l) :
    (sInsert ltEst x l).filter (fun p => decide (p.2 = v)) =
      l.filter (fun p => decide (p.2 = v)) ++ [x] := by
  induction l with
  | nil => simp [sInsert, hx]
  | cons y ys ih =>
    rcases List.pairwise_cons.1 hs with ⟨hy, hys⟩
    unfold sInsert
    split
    · rename_i hlt
      have hyv : ¬ (y.2 = v) := by
        intro hyv
        have : ltEst x y = ltEstVal v v := by
          unfold ltEst
          rw [hx, hyv]
        rw [this, ltEstVal_irrefl] at hlt
        exact absurd hlt (by simp)
      have hrest : ys.filter (fun p => decide (p.2 = v)) = [] := by
        rw [List.filter_eq_nil_iff]
        intro z hz
        intro hzv
        have hzv2 : z.2 = v := by simpa using hzv
        have : ltEst z y = ltEst x y := by
          unfold ltEst
          rw [hx, hzv2]
        rw [hy z hz] at this
        rw [← this] at hlt
        exact absurd hlt.symm (by simp)
      rw [List.filter_cons, if_pos (by simp [hx]), List.filter_cons, if_neg (by simp [hyv]),
        hrest]
      rfl
    · rw [List.filter_cons, List.filter_cons]
      by_cases hy2 : y.2 = v
      · rw [if_pos (by simp [hy2]), if_pos (by simp [hy2]), ih hys]
        rfl
      · rw [if_neg (by simp [hy2]), if_neg (by simp [hy2]), ih hys]

theorem stableSortBy_filter_aux (l : List (ExpEntry × Option Int)) (v : Option Int) :
    ∀ acc : List (ExpEntry × Option Int),
      List.Pairwise (fun a b => ltEst b a = false) acc →
      (l.foldl (fun a x => sInsert ltEst x a) acc).filter (fun p => decide (p.2 = v)) =
        acc.filter (fun p => decide (p.2 = v)) ++ l.filter (fun p => decide (p.2 = v)) := by
  induction l with
  | nil => intro acc _; simp
  | cons x xs ih =>
    intro acc h
    rw [List.foldl_cons, ih (sInsert ltEst x acc) (sInsert_pairwise h)]
    by_cases hx : x.2 = v
    · rw [sInsert_filter_self hx h, List.filter_cons, if_pos (by simp [hx])]
      simp
    · rw [sInsert_filter_other hx, List.filter_cons, if_neg (by simp [hx])]

/-- C8: in the diagnostic estimator, a candidate receives the sentinel
"no estimate" value exactly when its own entry is below the minimum
depth threshold; and the printed list is a stable descending sort of the
candidate list by estimated value: it is a permutation, no later element
beats an earlier one under the sort comparator (which puts every
"no estimate" candidate after every estimated one), and candidates with
equal estimates keep their chain order. -/
theorem claim8_estimator_sentinel_and_sort (idx : Index) (step : Nat → Nat → Nat)
    (key0 : Nat) :
    (∀ p ∈ showExpEstimates idx step key0, (p.2 = none ↔ p.1.depth < MIN_EXP_DEPTH)) ∧
    (showExpSorted idx step key0).Perm (showExpEstimates idx step key0) ∧
    List.Pairwise (fun a b => ltEst b a = false) (showExpSorted idx step key0) ∧
    (∀ v : Option Int, (showExpSorted idx step key0).filter (fun p => decide (p.2 = v)) =
      (showExpEstimates idx step key0).filter (fun p => decide (p.2 = v))) := by
  refine ⟨?_, stableSortBy_perm ltEst _, ?_, ?_⟩
  · intro p hp
    rcases List.mem_map.1 hp with ⟨t, _, rfl⟩
    unfold estimateOf
    by_cases hd : t.depth < MIN_EXP_DEPTH
    · simp [hd]
    · simp [hd]
  · exact stableSortBy_pairwise_aux _ [] (by simp)
  · intro v
    have := stableSortBy_filter_aux (showExpEstimates idx step key0) v [] (by simp)
    simpa [stableSortBy] using this

/-- Witness for C8: a concrete three-candidate chain (one candidate
below the depth threshold) with a concrete position-transition
function. -/
theorem claim8_witness :
    ((⟨1, 1, 10, 2⟩, (none : Option Int)) ∈
      showExpEstimates (linkList [⟨1, 1, 10, 2⟩, ⟨1, 2, 7, 8⟩, ⟨1, 3, 9, 8⟩] [])
        (fun k m => k + m) 1) ∧
    (((⟨1, 1, 10, 2⟩ : ExpEntry), (none : Option Int)).2 = none ↔
      (⟨1, 1, 10, 2⟩ : ExpEntry).depth < MIN_EXP_DEPTH) :=
  ⟨by decide,
    (claim8_estimator_sentinel_and_sort (linkList [⟨1, 1, 10, 2⟩, ⟨1, 2, 7, 8⟩, ⟨1, 3, 9, 8⟩] [])
      (fun k m => k + m) 1).1 (⟨1, 1, 10, 2⟩, none) (by decide)⟩

end Experience

